import Mathlib

/-! Verification of the `utils` package (kjtakke/GO-Language)

Shallow embedding of `src/utils/mutex.go` (the mutex-guarded FIFO `SafeQueue`),
of `src/utils/base64.go` (the string helpers around `encoding/base64`) and of
`FlattenJSON` in `src/utils/json.go`.

Go slices are modelled with their backing arrays: a heap is a list of arrays,
a slice header is a pointer (index of an array in the heap), an offset into
that array, a length and a capacity.  `append`, indexing and re-slicing follow
the Go language specification; the capacity chosen by the runtime when an
append has to reallocate is a parameter `grow` of the model.
-/

namespace utils

/-! ## Go runtime: slices, the heap of backing arrays, mutexes -/

/-- Slice header of Go: `ptr` is the backing array (`none` for the nil slice),
`off` the index in that array of element 0 of the slice. -/
structure Slice where
  ptr : Option Nat
  off : Nat
  len : Nat
  cap : Nat
  deriving DecidableEq, Repr

/-- Heap of backing arrays holding `interface{}` cells; `none` is the nil interface. -/
abbrev Heap (α : Type) := List (List (Option α))

/-- Go `error` value: `none` is the nil error, `some msg` an error with that message. -/
abbrev GoError := Option String

/-- The nil slice `[]interface{}(nil)`. -/
def nilSlice : Slice := ⟨none, 0, 0, 0⟩

/-- The elements `s[0], ..., s[len(s)-1]` of a slice, read from the heap. -/
def sliceToList {α : Type} (h : Heap α) (s : Slice) : List (Option α) :=
  match s.ptr with
  | none => []
  | some a => ((h.getD a []).drop s.off).take s.len

/-- Allocation of a slice of length and capacity 0: `make([]interface{}, 0)` and
`[]interface{}{}` give a non-nil slice over an empty array. -/
def makeEmpty {α : Type} (h : Heap α) : Heap α × Slice :=
  (h ++ [[]], ⟨some h.length, 0, 0, 0⟩)

/-- Index expression `s[i]`; `none` is the run-time panic "index out of range". -/
def sliceGet {α : Type} (h : Heap α) (s : Slice) (i : Nat) : Option (Option α) :=
  if i < s.len then
    match s.ptr with
    | none => none
    | some a => (h.getD a [])[s.off + i]?
  else none

/-- Assignment `s[i] = v`; `none` is the run-time panic "index out of range". -/
def sliceSet {α : Type} (h : Heap α) (s : Slice) (i : Nat) (v : Option α) : Option (Heap α) :=
  if i < s.len then
    match s.ptr with
    | none => none
    | some a => some (h.set a ((h.getD a []).set (s.off + i) v))
  else none

/-- Slice expression `s[lo:]`; `none` is the run-time panic "slice bounds out of range". -/
def sliceFrom (s : Slice) (lo : Nat) : Option Slice :=
  if lo ≤ s.len then some ⟨s.ptr, s.off + lo, s.len - lo, s.cap - lo⟩ else none

/-- Overwrite the cells `i, i+1, ...` of an array with `vs`. -/
def writeAt {α : Type} (arr : List (Option α)) (i : Nat) (vs : List (Option α)) :
    List (Option α) :=
  arr.take i ++ vs ++ arr.drop (i + vs.length)

/-- Builtin `append(s, vs...)`.  When the capacity suffices the values are written in
place behind the current elements; otherwise a new array of capacity
`max (len(s)+len(vs)) (grow cap(s) (len(s)+len(vs)))` is allocated, the old elements
are copied and the spare cells are zeroed (nil). -/
def goAppend {α : Type} (grow : Nat → Nat → Nat) (h : Heap α) (s : Slice)
    (vs : List (Option α)) : Heap α × Slice :=
  if s.len + vs.length ≤ s.cap then
    match s.ptr with
    | none => (h, s)
    | some a =>
      (h.set a (writeAt (h.getD a []) (s.off + s.len) vs), { s with len := s.len + vs.length })
  else
    let need := s.len + vs.length
    let newcap := max need (grow s.cap need)
    (h ++ [sliceToList h s ++ vs ++ List.replicate (newcap - need) none],
      ⟨some h.length, 0, need, newcap⟩)

/-- The mutex `sync.Mutex`: its only state is whether it is held. -/
structure Mutex where
  locked : Bool
  deriving DecidableEq, Repr

/-- Call `mu.Lock()` as seen by a single thread of execution: on a free mutex it
returns holding it; on a held mutex the caller never returns (`none`). -/
def Mutex.Lock (mu : Mutex) : Option Mutex :=
  if mu.locked then none else some ⟨true⟩

/-- Call `mu.Unlock()`: releases a held mutex; on a free mutex the runtime aborts with
"sync: unlock of unlocked mutex" (`none`). -/
def Mutex.Unlock (mu : Mutex) : Option Mutex :=
  if mu.locked then some ⟨false⟩ else none

/-! ## `SafeQueue` (src/utils/mutex.go) -/

/-- The struct `SafeQueue`. -/
structure SafeQueue where
  mu : Mutex
  items : Slice
  deriving DecidableEq, Repr

/-- Program state: the heap of backing arrays and the queue object `*q`. -/
structure World (α : Type) where
  heap : Heap α
  q : SafeQueue

/-- Statement `q.mu.Lock()`. -/
def lockQ {α : Type} (w : World α) : Option (World α) :=
  (w.q.mu.Lock).map fun m => { w with q := { w.q with mu := m } }

/-- Statement `q.mu.Unlock()`, run by `defer` when the method returns. -/
def unlockQ {α : Type} (w : World α) : Option (World α) :=
  (w.q.mu.Unlock).map fun m => { w with q := { w.q with mu := m } }

/-- Function `NewSafeQueue()`, called in a program whose heap is `h`. -/
def NewSafeQueue {α : Type} (h : Heap α) : World α :=
  let r := makeEmpty h
  { heap := r.1, q := { mu := ⟨false⟩, items := r.2 } }

/-- Method `(*SafeQueue).Enqueue(item)`. -/
def Enqueue {α : Type} (grow : Nat → Nat → Nat) (w : World α) (item : Option α) :
    Option (World α) := do
  let w ← lockQ w
  let r := goAppend grow w.heap w.q.items [item]
  let w : World α := { heap := r.1, q := { w.q with items := r.2 } }
  unlockQ w

/-- Method `(*SafeQueue).Dequeue()`: the pair `(item, err)` and the state afterwards. -/
def Dequeue {α : Type} (w : World α) : Option ((Option α × GoError) × World α) := do
  let w ← lockQ w
  if w.q.items.len = 0 then
    let w ← unlockQ w
    pure ((none, some "queue is empty"), w)
  else
    let item ← sliceGet w.heap w.q.items 0
    let rest ← sliceFrom w.q.items 1
    let w : World α := { w with q := { w.q with items := rest } }
    let w ← unlockQ w
    pure ((item, none), w)

/-- Method `(*SafeQueue).Peek()`. -/
def Peek {α : Type} (w : World α) : Option ((Option α × GoError) × World α) := do
  let w ← lockQ w
  if w.q.items.len = 0 then
    let w ← unlockQ w
    pure ((none, some "queue is empty"), w)
  else
    let item ← sliceGet w.heap w.q.items 0
    let w ← unlockQ w
    pure ((item, none), w)

/-- Method `(*SafeQueue).Length()`. -/
def Length {α : Type} (w : World α) : Option (Nat × World α) := do
  let w ← lockQ w
  let n := w.q.items.len
  let w ← unlockQ w
  pure (n, w)

/-- Method `(*SafeQueue).Clear()`. -/
def Clear {α : Type} (w : World α) : Option (World α) := do
  let w ← lockQ w
  let r := makeEmpty w.heap
  let w : World α := { heap := r.1, q := { w.q with items := r.2 } }
  unlockQ w

/-- Method `(*SafeQueue).Values()`: the returned slice and the state afterwards. -/
def Values {α : Type} (grow : Nat → Nat → Nat) (w : World α) : Option (Slice × World α) := do
  let w ← lockQ w
  let r := goAppend grow w.heap nilSlice (sliceToList w.heap w.q.items)
  let w : World α := { w with heap := r.1 }
  let w ← unlockQ w
  pure (r.2, w)

/-- Contents of the queue, head first. -/
def contents {α : Type} (w : World α) : List (Option α) :=
  sliceToList w.heap w.q.items

/-- A slice header is consistent with the heap: the length is within the capacity and
the capacity within the backing array. -/
def Slice.Valid {α : Type} (h : Heap α) (s : Slice) : Prop :=
  s.len ≤ s.cap ∧
    match s.ptr with
    | none => s.cap = 0
    | some a => a < h.length ∧ s.off + s.cap ≤ (h.getD a []).length

instance {α : Type} (h : Heap α) (s : Slice) : Decidable (s.Valid h) := by
  unfold Slice.Valid
  cases s.ptr <;> exact inferInstance

/-- A queue at rest between two method calls: the mutex is free and `items` is a
consistent slice. -/
def World.Ok {α : Type} (w : World α) : Prop :=
  w.q.mu.locked = false ∧ w.q.items.Valid w.heap

instance {α : Type} (w : World α) : Decidable w.Ok := by
  unfold World.Ok; exact inferInstance

/-! ## Client programs over a queue -/

/-- The calls `q.Enqueue(x)` for the elements `x` of `xs`, in order. -/
def enqueueAll {α : Type} (grow : Nat → Nat → Nat) : World α → List (Option α) → Option (World α)
  | w, [] => some w
  | w, x :: xs => (Enqueue grow w x).bind fun w' => enqueueAll grow w' xs

/-- The call `q.Dequeue()` made `n` times in a row: the pairs `(item, err)` returned, in
order, and the state afterwards. -/
def dequeueN {α : Type} : Nat → World α → Option (List (Option α × GoError) × World α)
  | 0, w => some ([], w)
  | n + 1, w =>
    (Dequeue w).bind fun r => (dequeueN n r.2).map fun rs => (r.1 :: rs.1, rs.2)

/-- One method call on the queue. -/
inductive Call (α : Type) where
  | enqueue (item : Option α)
  | dequeue
  | peek
  | length
  | clear
  | values
  deriving DecidableEq, Repr

/-- What a caller sees of a method call: nothing, an `(item, err)` pair, an integer, or
the elements of a returned slice. -/
inductive Seen (α : Type) where
  | done
  | pair (item : Option α) (err : GoError)
  | int (n : Nat)
  | elems (vs : List (Option α))
  deriving DecidableEq, Repr

/-- Run one method call. -/
def call {α : Type} (grow : Nat → Nat → Nat) (w : World α) : Call α → Option (Seen α × World α)
  | .enqueue item => (Enqueue grow w item).map fun w' => (.done, w')
  | .dequeue => (Dequeue w).map fun r => (.pair r.1.1 r.1.2, r.2)
  | .peek => (Peek w).map fun r => (.pair r.1.1 r.1.2, r.2)
  | .length => (Length w).map fun r => (.int r.1, r.2)
  | .clear => (Clear w).map fun w' => (.done, w')
  | .values => (Values grow w).map fun r => (.elems (sliceToList r.2.heap r.1), r.2)

/-- Run a sequence of method calls, collecting what each returns. -/
def runCalls {α : Type} (grow : Nat → Nat → Nat) :
    List (Call α) → World α → Option (List (Seen α) × World α)
  | [], w => some ([], w)
  | c :: cs, w =>
    (call grow w c).bind fun r => (runCalls grow cs r.2).map fun rs => (r.1 :: rs.1, rs.2)

/-- A caller overwrites elements of a slice it holds: the assignments `s[i] = v` for the
pairs `(i, v)` of `ws`, in order. -/
def sliceSetMany {α : Type} (s : Slice) : Heap α → List (Nat × Option α) → Option (Heap α)
  | h, [] => some h
  | h, (i, v) :: ws => (sliceSet h s i v).bind fun h' => sliceSetMany s h' ws

/-! ## `encoding/base64` of the Go standard library and src/utils/base64.go

The two functions of src/utils/base64.go call `base64.StdEncoding`.  The encoder and the
decoder below follow `Encode`, `Decode`, `decodeQuantum`, `assemble32` and `assemble64`
of the library.  Destination buffers are lists of bytes of the allocated length; a write
or a slice expression out of range is the run-time panic, `none`. -/


/-- A byte. -/
abbrev Byte := Fin 256

/-- A Go string: a sequence of bytes, not necessarily valid UTF-8. -/
abbrev GoString := List Byte

/-- The struct `base64.Encoding`. -/
structure Encoding where
  encode : List Byte
  decodeMap : Byte → Nat
  padChar : Int
  strict : Bool

/-- Constant `NoPadding`. -/
def NoPadding : Int := -1

/-- Constant `StdPadding`, the character `=`. -/
def StdPadding : Int := 61

/-- Constant `encodeStd`, the alphabet
`ABCDEFGHIJKLMNOPQRSTUVWXYZabcdefghijklmnopqrstuvwxyz0123456789+/` as bytes. -/
def encodeStd : List Byte :=
  [65, 66, 67, 68, 69, 70, 71, 72, 73, 74, 75, 76, 77, 78, 79, 80, 81, 82, 83, 84, 85, 86, 87, 88,
   89, 90, 97, 98, 99, 100, 101, 102, 103, 104, 105, 106, 107, 108, 109, 110, 111, 112, 113, 114,
   115, 116, 117, 118, 119, 120, 121, 122, 48, 49, 50, 51, 52, 53, 54, 55, 56, 57, 43, 47]

/-- Function `base64.NewEncoding(encoder)`: the decode map sends each symbol of the alphabet to
its index and every other byte to `0xff`; padding is `=`, decoding is not strict. -/
def NewEncoding (encoder : List Byte) : Encoding :=
  { encode := encoder
    decodeMap := fun c => if encoder.indexOf c < encoder.length then encoder.indexOf c else 0xff
    padChar := StdPadding
    strict := false }

/-- Variable `base64.StdEncoding`. -/
def StdEncoding : Encoding := NewEncoding encodeStd

/-- Table lookup `enc.encode[i]`. -/
def Encoding.sym (enc : Encoding) (i : Nat) : Byte := enc.encode.getD i 0

/-- Conversion `byte(x)` of an unsigned integer. -/
def toByte (x : Nat) : Byte := Fin.ofNat x

/-- Allocation `make([]byte, n)`. -/
def makeBytes (n : Nat) : List Byte := List.replicate n 0

/-- Assignment `dst[i] = b` to a byte slice; `none` is the panic "index out of range". -/
def setByte (dst : List Byte) (i : Nat) (b : Byte) : Option (List Byte) :=
  if i < dst.length then some (dst.set i b) else none

/-- The writes `b[0] = bs[0]`, `b[1] = bs[1]`, ... to `b = dst[n:]`, as done by
`binary.BigEndian.PutUint32` and `PutUint64` after their check that `b` is long enough;
`none` is the panic of that check or of the slice expression. -/
def putBytes (dst : List Byte) (n : Nat) (bs : List Byte) : Option (List Byte) :=
  if n + bs.length ≤ dst.length then some (dst.take n ++ bs ++ dst.drop (n + bs.length))
  else none

/-- Method `(*Encoding).EncodedLen`. -/
def Encoding.EncodedLen (enc : Encoding) (n : Nat) : Nat :=
  if enc.padChar = NoPadding then n / 3 * 4 + (n % 3 * 8 + 5) / 6 else (n + 2) / 3 * 4

/-- Method `(*Encoding).Encode(dst, src)`: the buffer `dst` afterwards; `di` is the
index at which the next symbol is written, `src` the input not yet encoded. -/
def Encoding.Encode (enc : Encoding) : List Byte → Nat → List Byte → Option (List Byte)
  | dst, _, [] => some dst
  | dst, di, b0 :: b1 :: b2 :: rest => do
    let val := b0.val <<< 16 ||| b1.val <<< 8 ||| b2.val
    let dst ← setByte dst (di + 0) (enc.sym (val >>> 18 &&& 0x3F))
    let dst ← setByte dst (di + 1) (enc.sym (val >>> 12 &&& 0x3F))
    let dst ← setByte dst (di + 2) (enc.sym (val >>> 6 &&& 0x3F))
    let dst ← setByte dst (di + 3) (enc.sym (val &&& 0x3F))
    enc.Encode dst (di + 4) rest
  | dst, di, [b0, b1] => do
    let val := b0.val <<< 16 ||| b1.val <<< 8
    let dst ← setByte dst (di + 0) (enc.sym (val >>> 18 &&& 0x3F))
    let dst ← setByte dst (di + 1) (enc.sym (val >>> 12 &&& 0x3F))
    let dst ← setByte dst (di + 2) (enc.sym (val >>> 6 &&& 0x3F))
    if enc.padChar ≠ NoPadding then setByte dst (di + 3) (toByte enc.padChar.toNat)
    else pure dst
  | dst, di, [b0] => do
    let val := b0.val <<< 16
    let dst ← setByte dst (di + 0) (enc.sym (val >>> 18 &&& 0x3F))
    let dst ← setByte dst (di + 1) (enc.sym (val >>> 12 &&& 0x3F))
    if enc.padChar ≠ NoPadding then do
      let dst ← setByte dst (di + 2) (toByte enc.padChar.toNat)
      setByte dst (di + 3) (toByte enc.padChar.toNat)
    else pure dst

/-- Method `(*Encoding).EncodeToString`: `Encode` into a buffer of `EncodedLen(len(src))`
bytes. -/
def Encoding.EncodeToString (enc : Encoding) (src : List Byte) : Option GoString :=
  enc.Encode (makeBytes (enc.EncodedLen src.length)) 0 src

/-- Method `(*Encoding).DecodedLen`. -/
def Encoding.DecodedLen (enc : Encoding) (n : Nat) : Nat :=
  if enc.padChar = NoPadding then n * 6 / 8 else n / 4 * 3

/-- Loop `for si < len(src) && (src[si] == '\n' || src[si] == '\r') { si++ }`, on the
input from `si` on. -/
def skipNewlines : List Byte → Nat → List Byte × Nat
  | [], si => ([], si)
  | c :: rest, si => if c = 10 ∨ c = 13 then skipNewlines rest (si + 1) else (c :: rest, si)

/-- How the loop of `decodeQuantum` ends: by a `return si, 0, err`, or by leaving the loop
with the sextets read (`dbuf`), their number `dlen` and a possible trailing-garbage
error. `rest` is the input from `si` on. -/
inductive Scan where
  | ret (rest : List Byte) (si : Nat) (err : Option Int)
  | conv (rest : List Byte) (si : Nat) (dbuf : List Nat) (dlen : Nat) (err : Option Int)

/-- End of a quantum after its padding: skip newlines, flag trailing garbage, leave the loop. -/
def padTail (rest : List Byte) (si : Nat) (dbuf : List Nat) (j : Nat) : Scan :=
  let r := skipNewlines rest si
  match r.1 with
  | [] => .conv [] r.2 dbuf j none
  | c :: cs => .conv (c :: cs) r.2 dbuf j (some (r.2 : Int))

/-- Loop `for j := 0; j < len(dbuf); j++` of `decodeQuantum`, entered at index `j` with
the sextets `dbuf` read so far; `src` is the input from `si` on. -/
def scan (enc : Encoding) : Nat → List Nat → List Byte → Nat → Scan
  | j, dbuf, [], si =>
    if 4 ≤ j then .conv [] si dbuf 4 none
    else if j = 0 then .ret [] si none
    else if j = 1 ∨ enc.padChar ≠ NoPadding then .ret [] si (some ((si : Int) - j))
    else .conv [] si dbuf j none
  | j, dbuf, c :: rest, si =>
    if 4 ≤ j then .conv (c :: rest) si dbuf 4 none
    else
      let out := enc.decodeMap c
      if out ≠ 0xff then scan enc (j + 1) (dbuf ++ [out]) rest (si + 1)
      else if c = 10 ∨ c = 13 then scan enc j dbuf rest (si + 1)
      else if (c.val : Int) ≠ enc.padChar then .ret rest (si + 1) (some (((si + 1 : Nat) : Int) - 1))
      else
        match j with
        | 0 => .ret rest (si + 1) (some (((si + 1 : Nat) : Int) - 1))
        | 1 => .ret rest (si + 1) (some (((si + 1 : Nat) : Int) - 1))
        | 2 =>
          let r := skipNewlines rest (si + 1)
          match r.1 with
          | [] => .ret [] r.2 (some (r.2 : Int))
          | c2 :: rest2 =>
            if (c2.val : Int) ≠ enc.padChar then .ret (c2 :: rest2) r.2 (some ((r.2 : Int) - 1))
            else padTail rest2 (r.2 + 1) dbuf j
        | _ => padTail rest (si + 1) dbuf j

/-- Result of `decodeQuantum`: the new `si` with the input from there on, the buffer
after the writes, the number `n` of bytes written that count, and the error. -/
structure Quantum where
  rest : List Byte
  si : Nat
  dst : List Byte
  n : Nat
  err : Option Int

/-- Method `(*Encoding).decodeQuantum(dst[n:], src, si)`, on the input `src` from `si` on:
`dst` is the whole buffer and `n` the offset of the slice the caller passes, so the
writes `dst[2]`, `dst[1]`, `dst[0]` of the source go to `n + 2`, `n + 1`, `n`. -/
def Encoding.decodeQuantum (enc : Encoding) (dst : List Byte) (n : Nat) (src : List Byte)
    (si : Nat) : Option Quantum :=
  if dst.length < n then none
  else
    match scan enc 0 [] src si with
    | .ret rest si' err => some ⟨rest, si', dst, 0, err⟩
    | .conv rest si' dbuf dlen err =>
      let val :=
        dbuf.getD 0 0 <<< 18 ||| dbuf.getD 1 0 <<< 12 ||| dbuf.getD 2 0 <<< 6 ||| dbuf.getD 3 0
      let d2 := toByte (val >>> 0)
      let d1 := toByte (val >>> 8)
      let d0 := toByte (val >>> 16)
      match dlen with
      | 4 => do
        let dst ← setByte dst (n + 2) d2
        let dst ← setByte dst (n + 1) d1
        let dst ← setByte dst (n + 0) d0
        pure ⟨rest, si', dst, 3, err⟩
      | 3 => do
        let dst ← setByte dst (n + 1) d1
        if enc.strict ∧ d2 ≠ 0 then pure ⟨rest, si', dst, 0, some ((si' : Int) - 1)⟩
        else do
          let dst ← setByte dst (n + 0) d0
          pure ⟨rest, si', dst, 2, err⟩
      | 2 => do
        let dst ← setByte dst (n + 0) d0
        if enc.strict ∧ (d1 ≠ 0 ∨ d2 ≠ 0) then pure ⟨rest, si', dst, 0, some ((si' : Int) - 2)⟩
        else pure ⟨rest, si', dst, 1, err⟩
      | _ => some ⟨rest, si', dst, dlen - 1, err⟩

/-- Function `assemble32`. -/
def assemble32 (n1 n2 n3 n4 : Nat) : Option Nat :=
  if n1 ||| n2 ||| n3 ||| n4 = 0xff then none
  else some ((n1 <<< 26 % 2 ^ 32) ||| (n2 <<< 20 % 2 ^ 32) ||| (n3 <<< 14 % 2 ^ 32)
    ||| (n4 <<< 8 % 2 ^ 32))

/-- Function `assemble64`. -/
def assemble64 (n1 n2 n3 n4 n5 n6 n7 n8 : Nat) : Option Nat :=
  if n1 ||| n2 ||| n3 ||| n4 ||| n5 ||| n6 ||| n7 ||| n8 = 0xff then none
  else some ((n1 <<< 58 % 2 ^ 64) ||| (n2 <<< 52 % 2 ^ 64) ||| (n3 <<< 46 % 2 ^ 64)
    ||| (n4 <<< 40 % 2 ^ 64) ||| (n5 <<< 34 % 2 ^ 64) ||| (n6 <<< 28 % 2 ^ 64)
    ||| (n7 <<< 22 % 2 ^ 64) ||| (n8 <<< 16 % 2 ^ 64))

/-- Third loop of `Decode`: `for si < len(src)`, one `decodeQuantum` per turn.  `src` is
the input from `si` on, `dst` the buffer and `n` the number of bytes decoded; `fuel`
bounds the number of turns.  The result is the buffer, `n` and `err`; `none` when a
panic occurs or the bound is hit. -/
def decodeSlow (enc : Encoding) :
    Nat → List Byte → Nat → List Byte → Nat → Option (List Byte × Nat × Option Int)
  | 0, _, _, _, _ => none
  | fuel + 1, src, si, dst, n =>
    if 0 < src.length then
      match enc.decodeQuantum dst n src si with
      | none => none
      | some r =>
        if r.err ≠ none then some (r.dst, n + r.n, r.err)
        else decodeSlow enc fuel r.rest r.si r.dst (n + r.n)
    else some (dst, n, none)

/-- Second loop of `Decode`: `for len(src)-si >= 4 && len(dst)-n >= 4`, four symbols at a
time through `assemble32` and `PutUint32(dst[n:], dn)` with `n += 3`, falling back to
`decodeQuantum`; then the third loop. -/
def decode32 (enc : Encoding) :
    Nat → List Byte → Nat → List Byte → Nat → Option (List Byte × Nat × Option Int)
  | 0, _, _, _, _ => none
  | fuel + 1, src, si, dst, n =>
    match src with
    | c0 :: c1 :: c2 :: c3 :: rest =>
      if 4 ≤ dst.length - n then
        match assemble32 (enc.decodeMap c0) (enc.decodeMap c1) (enc.decodeMap c2)
            (enc.decodeMap c3) with
        | some dn =>
          match putBytes dst n
              [toByte (dn >>> 24), toByte (dn >>> 16), toByte (dn >>> 8), toByte dn] with
          | none => none
          | some dst' => decode32 enc fuel rest (si + 4) dst' (n + 3)
        | none =>
          match enc.decodeQuantum dst n src si with
          | none => none
          | some r =>
            if r.err ≠ none then some (r.dst, n + r.n, r.err)
            else decode32 enc fuel r.rest r.si r.dst (n + r.n)
      else decodeSlow enc (fuel + 1) src si dst n
    | _ => decodeSlow enc (fuel + 1) src si dst n

/-- First loop of `Decode`: `for strconv.IntSize >= 64 && len(src)-si >= 8 && len(dst)-n >= 8`,
eight symbols at a time through `assemble64` and `PutUint64(dst[n:], dn)` with `n += 6`,
falling back to `decodeQuantum`; then the second loop. -/
def decode64 (enc : Encoding) (intSize : Nat) :
    Nat → List Byte → Nat → List Byte → Nat → Option (List Byte × Nat × Option Int)
  | 0, _, _, _, _ => none
  | fuel + 1, src, si, dst, n =>
    match src with
    | c0 :: c1 :: c2 :: c3 :: c4 :: c5 :: c6 :: c7 :: rest =>
      if 64 ≤ intSize ∧ 8 ≤ dst.length - n then
        match assemble64 (enc.decodeMap c0) (enc.decodeMap c1) (enc.decodeMap c2)
            (enc.decodeMap c3) (enc.decodeMap c4) (enc.decodeMap c5) (enc.decodeMap c6)
            (enc.decodeMap c7) with
        | some dn =>
          match putBytes dst n
              [toByte (dn >>> 56), toByte (dn >>> 48), toByte (dn >>> 40), toByte (dn >>> 32),
                toByte (dn >>> 24), toByte (dn >>> 16), toByte (dn >>> 8), toByte dn] with
          | none => none
          | some dst' => decode64 enc intSize fuel rest (si + 8) dst' (n + 6)
        | none =>
          match enc.decodeQuantum dst n src si with
          | none => none
          | some r =>
            if r.err ≠ none then some (r.dst, n + r.n, r.err)
            else decode64 enc intSize fuel r.rest r.si r.dst (n + r.n)
      else decode32 enc (fuel + 1) src si dst n
    | _ => decode32 enc (fuel + 1) src si dst n

/-- Method `(*Encoding).Decode(dst, src)`: the buffer afterwards, `n` and `err`.  Every turn
of the three loops consumes at least one byte of the input, so the bound of
`len(src) + 1` turns is generous. -/
def Encoding.Decode (enc : Encoding) (intSize : Nat) (dst src : List Byte) :
    Option (List Byte × Nat × Option Int) :=
  if src.length = 0 then some (dst, 0, none)
  else decode64 enc intSize (src.length + 1) src 0 dst 0

/-- Method `(*Encoding).DecodeString`: `dbuf[:n]` and `err` of `Decode` on a buffer `dbuf`
of `DecodedLen(len(s))` bytes. -/
def Encoding.DecodeString (enc : Encoding) (intSize : Nat) (s : GoString) :
    Option (List Byte × Option Int) :=
  match enc.Decode intSize (makeBytes (enc.DecodedLen s.length)) s with
  | none => none
  | some (dbuf, n, err) => if n ≤ dbuf.length then some (dbuf.take n, err) else none

/-- Function `EncodeStringToBase64` of src/utils/base64.go. -/
def EncodeStringToBase64 (input : GoString) : Option GoString :=
  StdEncoding.EncodeToString input

/-- Function `DecodeBase64ToString` of src/utils/base64.go; `intSize` is `strconv.IntSize` of the
platform. -/
def DecodeBase64ToString (intSize : Nat) (encoded : GoString) :
    Option (GoString × Option Int) :=
  match StdEncoding.DecodeString intSize encoded with
  | none => none
  | some (decodedBytes, err) =>
    match err with
    | some e => some ([], some e)
    | none => some (decodedBytes, none)

/-- The symbols `Encode` writes for the input `src`, three bytes at a time, the last one
or two bytes padded. -/
def Encoding.symbols (enc : Encoding) : List Byte → List Byte
  | [] => []
  | b0 :: b1 :: b2 :: rest =>
    let val := b0.val <<< 16 ||| b1.val <<< 8 ||| b2.val
    [enc.sym (val >>> 18 &&& 0x3F), enc.sym (val >>> 12 &&& 0x3F), enc.sym (val >>> 6 &&& 0x3F),
      enc.sym (val &&& 0x3F)] ++ enc.symbols rest
  | [b0, b1] =>
    let val := b0.val <<< 16 ||| b1.val <<< 8
    [enc.sym (val >>> 18 &&& 0x3F), enc.sym (val >>> 12 &&& 0x3F), enc.sym (val >>> 6 &&& 0x3F)]
      ++ (if enc.padChar ≠ NoPadding then [toByte enc.padChar.toNat] else [])
  | [b0] =>
    let val := b0.val <<< 16
    [enc.sym (val >>> 18 &&& 0x3F), enc.sym (val >>> 12 &&& 0x3F)]
      ++ (if enc.padChar ≠ NoPadding then [toByte enc.padChar.toNat, toByte enc.padChar.toNat]
          else [])

/-- The 6-bit group of `v` that starts at bit `k`. -/
def sextet (v k : Nat) : Nat := v / 2 ^ k % 64

/-- The 24-bit group made of three bytes. -/
def quantumVal (b0 b1 b2 : Nat) : Nat := b0 * 65536 + b1 * 256 + b2

/-! ## Sample inputs -/

/-- A queue at rest holding `1, 2, 3` in an array of capacity 4. -/
def sampleWorld : World Nat :=
  { heap := [[some 1, some 2, some 3, none]], q := { mu := ⟨false⟩, items := ⟨some 0, 0, 3, 4⟩ } }

/-- A growth policy for `append`: double the capacity. -/
def sampleGrow (oldCap _need : Nat) : Nat := 2 * oldCap

/-! ## Threads calling `Enqueue` concurrently

Each thread runs `for _, item := range items { q.Enqueue(item) }`.  A call of `Enqueue`
is executed in four steps that the scheduler may interleave with the steps of the
other threads: `q.mu.Lock()` (which only proceeds when the mutex is free), the read of
`q.items`, the `append` together with the write of its result to `q.items`, and the
deferred `q.mu.Unlock()`. -/

/-- Position of a thread inside the `Enqueue` call in progress. -/
inductive PC where
  | atLock
  | atLoad
  | atStore
  | atUnlock
  deriving DecidableEq, Repr

/-- A thread: the items it enqueues, the number of its `Enqueue` calls that have
returned, its position in the call in progress and the slice header it read from
`q.items`. -/
structure Thread (α : Type) where
  items : List (Option α)
  next : Nat
  pc : PC
  loaded : Slice

/-- The shared state and the threads. -/
structure Conc (α : Type) where
  world : World α
  threads : List (Thread α)

/-- One step of a thread.  A thread that has made all its calls, or that waits in
`Lock()` for a held mutex, does not move; `none` is the fatal error of `Unlock()` on a
free mutex. -/
def stepThread {α : Type} (grow : Nat → Nat → Nat) (w : World α) (t : Thread α) :
    Option (World α × Thread α) :=
  match t.items[t.next]? with
  | none => some (w, t)
  | some item =>
    match t.pc with
    | .atLock =>
      match lockQ w with
      | none => some (w, t)
      | some w' => some (w', { t with pc := .atLoad })
    | .atLoad => some (w, { t with loaded := w.q.items, pc := .atStore })
    | .atStore =>
      let r := goAppend grow w.heap t.loaded [item]
      some ({ heap := r.1, q := { w.q with items := r.2 } }, { t with pc := .atUnlock })
    | .atUnlock =>
      (unlockQ w).map fun w' => (w', { t with pc := .atLock, next := t.next + 1 })

/-- The scheduler lets thread `i` make one step. -/
def step {α : Type} (grow : Nat → Nat → Nat) (c : Conc α) (i : Nat) : Option (Conc α) :=
  match c.threads[i]? with
  | none => some c
  | some t =>
    (stepThread grow c.world t).map fun r => { world := r.1, threads := c.threads.set i r.2 }

/-- Run a schedule: the list of the threads chosen by the scheduler, step by step. -/
def runSched {α : Type} (grow : Nat → Nat → Nat) : List Nat → Conc α → Option (Conc α)
  | [], c => some c
  | i :: sched, c => (step grow c i).bind fun c' => runSched grow sched c'

/-- Start: a queue from `NewSafeQueue()` and one thread per list of items, none of
which has called `Enqueue` yet. -/
def initConc {α : Type} (h : Heap α) (progs : List (List (Option α))) : Conc α :=
  { world := NewSafeQueue h
    threads := progs.map fun p => { items := p, next := 0, pc := .atLock, loaded := nilSlice } }

/-- Every thread has returned from all its `Enqueue` calls. -/
def allDone {α : Type} (c : Conc α) : Bool :=
  c.threads.all fun t => decide (t.items.length ≤ t.next)

/-- The schedule runs without a fatal error and ends with every thread done. -/
def finishes {α : Type} (grow : Nat → Nat → Nat) (h : Heap α) (progs : List (List (Option α)))
    (sched : List Nat) : Bool :=
  match runSched grow sched (initConc h progs) with
  | none => false
  | some c => allDone c

/-- Draining: `for { item, err := q.Dequeue(); if err != nil { break }; out = append(out, item) }`,
with a bound `fuel` on the number of `Dequeue` calls (`none` when the bound is hit). -/
def drain {α : Type} : Nat → World α → Option (List (Option α) × World α)
  | 0, _ => none
  | fuel + 1, w =>
    match Dequeue w with
    | none => none
    | some ((item, err), w') =>
      match err with
      | some _ => some ([], w')
      | none => (drain fuel w').map fun r => (item :: r.1, r.2)

/-- The thread is between `Lock()` and `Unlock()`. -/
def Thread.inCS {α : Type} (t : Thread α) : Bool :=
  match t.pc with
  | .atLock => false
  | _ => true

/-- The items of the thread that are in the queue's slice by now. -/
def Thread.appended {α : Type} (t : Thread α) : List (Option α) :=
  t.items.take (t.next + match t.pc with
    | .atUnlock => 1
    | _ => 0)

/-- Invariant of the concurrent runs from `initConc h progs`. -/
structure Inv {α : Type} (progs : List (List (Option α))) (c : Conc α) : Prop where
  items_eq : c.threads.map (fun t => t.items) = progs
  valid : c.world.q.items.Valid c.world.heap
  mutex : c.threads.countP (fun t => t.inCS) = if c.world.q.mu.locked then 1 else 0
  loaded : ∀ t ∈ c.threads, t.pc = .atStore → t.loaded = c.world.q.items
  cur : ∀ t ∈ c.threads, t.inCS = true → t.next < t.items.length
  perm : List.Perm (contents c.world) (c.threads.map fun t => t.appended).flatten
  sub : ∀ t ∈ c.threads, List.Sublist t.appended (contents c.world)

/-- Two threads, two items each. -/
def sampleProgs : List (List (Option Nat)) := [[some 1, some 2], [some 3, some 4]]

/-- A schedule for two threads in which the second thread waits for the mutex while the
first is inside `Enqueue`, and the calls of the two threads alternate. -/
def sampleSched : List Nat :=
  [0, 1, 0, 1, 0, 1, 0, 1, 1, 0, 1, 1, 0, 0, 1, 0, 0, 1, 0, 1, 1, 1, 1]

/-! ## `FlattenJSON` (src/utils/json.go)

A value of type `map[string]interface{}` is given by its entries in the order in which
`range` visits them; an entry holds either a nested `map[string]interface{}` or a value
of any other dynamic type (`β`).  The verb `%v` of `fmt.Sprintf` is a parameter `fmtV`. -/

/-- A `map[string]interface{}`, entry by entry in iteration order: no entry, an entry
whose value is not a `map[string]interface{}`, or an entry whose value is one. -/
inductive JMap (β : Type) where
  | empty
  | leaf (k : GoString) (v : β) (rest : JMap β)
  | sub (k : GoString) (m : JMap β) (rest : JMap β)
  deriving DecidableEq, Repr

/-- The string `"."`. -/
def dotStr : GoString := [46]

/-- The statements `fullKey := k; if pre != "" { fullKey = pre + "." + k }` of `walkJSON`;
`pre` is the second parameter of the function. -/
def fullKey (pre k : GoString) : GoString :=
  if pre ≠ [] then pre ++ dotStr ++ k else k

/-- Function `walkJSON(data, pre, acc)`: the slice `*acc` afterwards. -/
def walkJSON {β : Type} (fmtV : β → GoString) :
    JMap β → GoString → List (GoString × GoString) → List (GoString × GoString)
  | .empty, _, acc => acc
  | .leaf k v rest, pre, acc => walkJSON fmtV rest pre (acc ++ [(fullKey pre k, fmtV v)])
  | .sub k m rest, pre, acc => walkJSON fmtV rest pre (walkJSON fmtV m (fullKey pre k) acc)

/-- Function `FlattenJSON(data)`. -/
def FlattenJSON {β : Type} (fmtV : β → GoString) (data : JMap β) : List (GoString × GoString) :=
  walkJSON fmtV data [] []

/-- The values of a nested map that are not themselves maps, each with the keys on the
path from the root to it. -/
def JMap.leaves {β : Type} : JMap β → List (List GoString × β)
  | .empty => []
  | .leaf k v rest => ([k], v) :: rest.leaves
  | .sub k m rest => (m.leaves.map fun l => (k :: l.1, l.2)) ++ rest.leaves

/-- The number of values of a nested map that are not themselves maps. -/
def JMap.numLeaves {β : Type} : JMap β → Nat
  | .empty => 0
  | .leaf _ _ rest => 1 + rest.numLeaves
  | .sub _ m rest => m.numLeaves + rest.numLeaves

/-- The keys of a path joined with `"."`, as `strings.Join(path, ".")` does. -/
def joinDots : List GoString → GoString
  | [] => []
  | [k] => k
  | k :: k2 :: ks => k ++ dotStr ++ joinDots (k2 :: ks)

/-- The key `walkJSON` builds along a path, started with `pre`. -/
def pathKey : GoString → List GoString → GoString
  | pre, [] => pre
  | pre, k :: ks => pathKey (fullKey pre k) ks

/-- The keys of the entries of a map, in iteration order. -/
def JMap.keys {β : Type} : JMap β → List GoString
  | .empty => []
  | .leaf k _ rest => k :: rest.keys
  | .sub k _ rest => k :: rest.keys

/-- No key of the top level that holds a nested map is the empty string. -/
def JMap.TopMapKeysNonEmpty {β : Type} : JMap β → Prop
  | .empty => True
  | .leaf _ _ rest => rest.TopMapKeysNonEmpty
  | .sub k _ rest => k ≠ [] ∧ rest.TopMapKeysNonEmpty

/-- The keys of a map are pairwise distinct, at every level (what the type
`map[string]interface{}` guarantees). -/
def JMap.DistinctKeys {β : Type} : JMap β → Prop
  | .empty => True
  | .leaf k _ rest => k ∉ rest.keys ∧ rest.DistinctKeys
  | .sub k m rest => k ∉ rest.keys ∧ m.DistinctKeys ∧ rest.DistinctKeys

/-- A key is non-empty and contains no `"."`. -/
def KeyOk (k : GoString) : Prop := k ≠ [] ∧ (46 : Byte) ∉ k

/-- Every key at every level is non-empty and contains no `"."`. -/
def JMap.KeysOk {β : Type} : JMap β → Prop
  | .empty => True
  | .leaf k _ rest => KeyOk k ∧ rest.KeysOk
  | .sub k m rest => KeyOk k ∧ m.KeysOk ∧ rest.KeysOk

instance (k : GoString) : Decidable (KeyOk k) := by
  unfold KeyOk; exact inferInstance

/-- Decision procedure for `TopMapKeysNonEmpty`. -/
def JMap.decTopMapKeysNonEmpty {β : Type} : (m : JMap β) → Decidable m.TopMapKeysNonEmpty
  | .empty => isTrue trivial
  | .leaf _ _ rest => decTopMapKeysNonEmpty rest
  | .sub k _ rest => @instDecidableAnd (k ≠ []) _ inferInstance (decTopMapKeysNonEmpty rest)

/-- Decision procedure for `DistinctKeys`. -/
def JMap.decDistinctKeys {β : Type} : (m : JMap β) → Decidable m.DistinctKeys
  | .empty => isTrue trivial
  | .leaf k _ rest => @instDecidableAnd (k ∉ rest.keys) _ inferInstance (decDistinctKeys rest)
  | .sub k m rest =>
    @instDecidableAnd (k ∉ rest.keys) _ inferInstance
      (@instDecidableAnd _ _ (decDistinctKeys m) (decDistinctKeys rest))

/-- Decision procedure for `KeysOk`. -/
def JMap.decKeysOk {β : Type} : (m : JMap β) → Decidable m.KeysOk
  | .empty => isTrue trivial
  | .leaf k _ rest => @instDecidableAnd (KeyOk k) _ inferInstance (decKeysOk rest)
  | .sub k m rest =>
    @instDecidableAnd (KeyOk k) _ inferInstance
      (@instDecidableAnd _ _ (decKeysOk m) (decKeysOk rest))

instance {β : Type} (m : JMap β) : Decidable m.TopMapKeysNonEmpty := m.decTopMapKeysNonEmpty

instance {β : Type} (m : JMap β) : Decidable m.DistinctKeys := m.decDistinctKeys

instance {β : Type} (m : JMap β) : Decidable m.KeysOk := m.decKeysOk

/-- An entry of a map: its key and either a value that is not a map or a nested map. -/
abbrev JEntry (β : Type) := GoString × (β ⊕ JMap β)

/-- The map `rest` with the entry `e` visited first. -/
def JMap.cons {β : Type} (e : JEntry β) (rest : JMap β) : JMap β :=
  match e.2 with
  | .inl v => .leaf e.1 v rest
  | .inr m => .sub e.1 m rest

/-- The same map visited by `range` in another order, at any level. -/
inductive Reordered {β : Type} : JMap β → JMap β → Prop where
  | refl (m : JMap β) : Reordered m m
  | trans {a b c : JMap β} : Reordered a b → Reordered b c → Reordered a c
  | leaf (k : GoString) (v : β) {r r' : JMap β} :
      Reordered r r' → Reordered (.leaf k v r) (.leaf k v r')
  | sub (k : GoString) {m m' r r' : JMap β} :
      Reordered m m' → Reordered r r' → Reordered (.sub k m r) (.sub k m' r')
  | swap (e1 e2 : JEntry β) (r : JMap β) :
      Reordered (JMap.cons e1 (JMap.cons e2 r)) (JMap.cons e2 (JMap.cons e1 r))

/-- The verb `%v` on small numbers: one decimal digit. -/
def sampleFmt (n : Nat) : GoString := [toByte (48 + n)]

/-- The map `{"": {"a": 1}}`. -/
def emptyKeyMap : JMap Nat := .sub [] (.leaf [97] 1 .empty) .empty

/-- The map `{"x": {"": {"a": 1}}}`. -/
def nestedEmptyKeyMap : JMap Nat := .sub [120] (.sub [] (.leaf [97] 1 .empty) .empty) .empty

/-- The map `{"a": 1, "b": {"c": 2, "d": {}}, "e": {"f": {"g": 3}}}`. -/
def sampleMap : JMap Nat :=
  .leaf [97] 1 (.sub [98] (.leaf [99] 2 (.sub [100] .empty .empty))
    (.sub [101] (.sub [102] (.leaf [103] 3 .empty) .empty) .empty))

/-- The number of steps a thread still has to make: four for each `Enqueue` call not yet
returned, less the steps already made in the call in progress. -/
def Thread.work {α : Type} (t : Thread α) : Nat :=
  4 * (t.items.length - t.next) - match t.pc with
    | .atLock => 0
    | .atLoad => 1
    | .atStore => 2
    | .atUnlock => 3

/-- The number of steps all threads together still have to make. -/
def Conc.work {α : Type} (c : Conc α) : Nat :=
  (c.threads.map fun t => t.work).sum

/-- The outcome of draining the queue of `c` with `Dequeue` until the empty-queue error:
the loop returns a list `out` that is a permutation of all the items of `progs`
(pairwise distinct when these are, `T * K` of them when each of the `T` threads has `K`
items), with the items of each thread in that thread's order. -/
def Drained {α : Type} (progs : List (List (Option α))) (c : Conc α) : Prop :=
  ∃ out : List (Option α),
    (∀ fuel, out.length < fuel → ∃ w', drain fuel c.world = some (out, w')) ∧
    List.Perm out progs.flatten ∧
    (progs.flatten.Nodup → out.Nodup) ∧
    (∀ K, (∀ p ∈ progs, p.length = K) → out.length = progs.length * K) ∧
    ∀ p ∈ progs, List.Sublist p out

/-! ## Facts about slices and `append` -/

theorem heap_getD_set {α : Type} (h : Heap α) (a : Nat) (x : List (Option α))
    (ha : a < h.length) : (h.set a x).getD a [] = x := by
  simp [List.getD_eq_getElem?_getD, List.getElem?_set, ha]

theorem heap_getD_set_ne {α : Type} (h : Heap α) (a b : Nat) (x : List (Option α))
    (hab : a ≠ b) : (h.set a x).getD b [] = h.getD b [] := by
  simp [List.getD_eq_getElem?_getD, List.getElem?_set, hab]

theorem heap_getD_append {α : Type} (h : Heap α) (x : List (Option α)) (a : Nat)
    (ha : a < h.length) : (h ++ [x]).getD a [] = h.getD a [] := by
  simp [List.getD_eq_getElem?_getD, List.getElem?_append_left ha]

theorem heap_getD_append_new {α : Type} (h : Heap α) (x : List (Option α)) :
    (h ++ [x]).getD h.length [] = x := by
  simp [List.getD_eq_getElem?_getD]

theorem sliceToList_length {α : Type} (h : Heap α) (s : Slice) (hs : s.Valid h) :
    (sliceToList h s).length = s.len := by
  obtain ⟨hlen, hp⟩ := hs
  unfold sliceToList
  cases hptr : s.ptr with
  | none => simp [hptr] at hp ⊢; omega
  | some a =>
    simp only [hptr] at hp ⊢
    simp only [List.length_take, List.length_drop]
    omega

theorem writeAt_length {α : Type} (arr : List (Option α)) (i : Nat) (vs : List (Option α))
    (hi : i + vs.length ≤ arr.length) : (writeAt arr i vs).length = arr.length := by
  simp only [writeAt, List.length_append, List.length_take, List.length_drop]
  omega

theorem writeAt_window {α : Type} (arr : List (Option α)) (off n : Nat) (vs : List (Option α))
    (hi : off + n + vs.length ≤ arr.length) :
    ((writeAt arr (off + n) vs).drop off).take (n + vs.length)
      = (arr.drop off).take n ++ vs := by
  unfold writeAt
  have h1 : (arr.take (off + n)).length = off + n := by
    simp only [List.length_take]; omega
  rw [List.append_assoc, List.drop_append_of_le_length (by omega)]
  have h2 : ((arr.take (off + n)).drop off).length = n := by
    simp only [List.length_drop, h1]; omega
  rw [← List.append_assoc, List.take_left' (by simp only [List.length_append, h2])]
  rw [List.drop_take]
  simp

/-- Extending the heap by a new array leaves every consistent slice as it was. -/
theorem sliceToList_heap_append {α : Type} (h : Heap α) (x : List (Option α)) (s : Slice)
    (hs : s.Valid h) : sliceToList (h ++ [x]) s = sliceToList h s := by
  obtain ⟨_, hp⟩ := hs
  unfold sliceToList
  cases hptr : s.ptr with
  | none => rfl
  | some a =>
    simp only [hptr] at hp ⊢
    rw [heap_getD_append h x a hp.1]

theorem valid_heap_append {α : Type} (h : Heap α) (x : List (Option α)) (s : Slice)
    (hs : s.Valid h) : s.Valid (h ++ [x]) := by
  obtain ⟨hlen, hp⟩ := hs
  refine ⟨hlen, ?_⟩
  cases hptr : s.ptr with
  | none => simpa [hptr] using hp
  | some a =>
    simp only [hptr] at hp ⊢
    rw [heap_getD_append h x a hp.1]
    exact ⟨by simp only [List.length_append, List.length_singleton]; omega, hp.2⟩

/-- What `append` returns: a consistent slice holding the old elements followed by the
appended ones. -/
theorem goAppend_spec {α : Type} (grow : Nat → Nat → Nat) (h : Heap α) (s : Slice)
    (vs : List (Option α)) (hs : s.Valid h) :
    (goAppend grow h s vs).2.Valid (goAppend grow h s vs).1 ∧
    sliceToList (goAppend grow h s vs).1 (goAppend grow h s vs).2 = sliceToList h s ++ vs ∧
    (goAppend grow h s vs).2.len = s.len + vs.length := by
  have hlen := sliceToList_length h s hs
  obtain ⟨hle, hp⟩ := hs
  unfold goAppend
  by_cases hc : s.len + vs.length ≤ s.cap
  · rw [if_pos hc]
    cases hptr : s.ptr with
    | none =>
      simp only [hptr] at hp
      have hv : vs = [] := List.eq_nil_of_length_eq_zero (by omega)
      subst hv
      refine ⟨⟨hle, by simp [hptr, hp]⟩, by simp, by simp⟩
    | some a =>
      simp only [hptr] at hp
      obtain ⟨ha, hcap⟩ := hp
      refine ⟨⟨hc, ?_⟩, ?_, rfl⟩
      · simp only [hptr, List.length_set]
        refine ⟨ha, ?_⟩
        rw [heap_getD_set h a _ ha, writeAt_length _ _ _ (by omega)]
        exact hcap
      · simp only [sliceToList, hptr]
        rw [heap_getD_set h a _ ha]
        exact writeAt_window _ _ _ _ (by omega)
  · rw [if_neg hc]
    refine ⟨⟨by simp only; omega, ?_⟩, ?_, rfl⟩
    · simp only [List.length_append, List.length_singleton, heap_getD_append_new,
        List.length_replicate, hlen]
      omega
    · simp only [sliceToList, heap_getD_append_new, List.drop_zero]
      rw [List.append_assoc, ← List.append_assoc]
      apply List.take_left'
      simp only [List.length_append]
      have := hlen
      simp only [sliceToList] at this
      omega

/-- The heap after `append` still has every array it had, with the same or a larger
index range, so slices over other arrays stay consistent. -/
theorem goAppend_nil_frame {α : Type} (grow : Nat → Nat → Nat) (h : Heap α)
    (vs : List (Option α)) (t : Slice) (ht : t.Valid h) :
    t.Valid (goAppend grow h nilSlice vs).1 ∧
    sliceToList (goAppend grow h nilSlice vs).1 t = sliceToList h t := by
  unfold goAppend
  by_cases hc : nilSlice.len + vs.length ≤ nilSlice.cap
  · rw [if_pos hc]
    exact ⟨ht, rfl⟩
  · rw [if_neg hc]
    exact ⟨valid_heap_append h _ t ht, sliceToList_heap_append h _ t ht⟩

/-! ## The methods of `SafeQueue` on a queue at rest -/

theorem NewSafeQueue_ok {α : Type} (h : Heap α) :
    (NewSafeQueue h).Ok ∧ contents (NewSafeQueue h) = [] ∧
      (NewSafeQueue h).q.items.len = 0 := by
  refine ⟨⟨rfl, ?_⟩, ?_, rfl⟩
  · simp [NewSafeQueue, makeEmpty, Slice.Valid]
  · simp [contents, NewSafeQueue, makeEmpty, sliceToList]

theorem contents_length {α : Type} (w : World α) (hw : w.Ok) :
    (contents w).length = w.q.items.len :=
  sliceToList_length w.heap w.q.items hw.2

theorem Enqueue_spec {α : Type} (grow : Nat → Nat → Nat) (w : World α) (item : Option α)
    (hw : w.Ok) :
    ∃ w', Enqueue grow w item = some w' ∧ w'.Ok ∧ contents w' = contents w ++ [item] ∧
      w'.q.items.len = w.q.items.len + 1 := by
  obtain ⟨heap, ⟨⟨locked⟩, items⟩⟩ := w
  obtain ⟨hl, hv⟩ := hw
  simp only at hl hv
  subst hl
  obtain ⟨h1, h2, h3⟩ := goAppend_spec grow heap items [item] hv
  refine ⟨⟨(goAppend grow heap items [item]).1, ⟨⟨false⟩, (goAppend grow heap items [item]).2⟩⟩,
    ?_, ⟨rfl, h1⟩, h2, h3⟩
  simp [Enqueue, lockQ, unlockQ, Mutex.Lock, Mutex.Unlock]

theorem Dequeue_empty {α : Type} (w : World α) (hw : w.Ok) (he : w.q.items.len = 0) :
    Dequeue w = some ((none, some "queue is empty"), w) := by
  obtain ⟨heap, ⟨⟨locked⟩, items⟩⟩ := w
  obtain ⟨hl, _⟩ := hw
  simp only at hl he
  subst hl
  simp [Dequeue, lockQ, unlockQ, Mutex.Lock, Mutex.Unlock, he]

theorem Peek_empty {α : Type} (w : World α) (hw : w.Ok) (he : w.q.items.len = 0) :
    Peek w = some ((none, some "queue is empty"), w) := by
  obtain ⟨heap, ⟨⟨locked⟩, items⟩⟩ := w
  obtain ⟨hl, _⟩ := hw
  simp only at hl he
  subst hl
  simp [Peek, lockQ, unlockQ, Mutex.Lock, Mutex.Unlock, he]

/-- Reading the head of a consistent slice whose elements are `x :: rest`. -/
theorem slice_head {α : Type} (h : Heap α) (s : Slice) (x : Option α) (rest : List (Option α))
    (hs : s.Valid h) (hc : sliceToList h s = x :: rest) :
    s.len ≠ 0 ∧ sliceGet h s 0 = some x ∧
      ∃ t, sliceFrom s 1 = some t ∧ t.Valid h ∧ sliceToList h t = rest ∧ t.len + 1 = s.len := by
  have hlen := sliceToList_length h s hs
  rw [hc] at hlen
  simp only [List.length_cons] at hlen
  obtain ⟨hle, hp⟩ := hs
  cases hptr : s.ptr with
  | none => simp [sliceToList, hptr] at hc
  | some a =>
    simp only [hptr] at hp
    simp only [sliceToList, hptr] at hc
    have hpos : 0 < s.len := by omega
    have hoff : s.off < (h.getD a []).length := by omega
    have hd : (h.getD a []).drop s.off = (h.getD a [])[s.off] :: (h.getD a []).drop (s.off + 1) :=
      List.drop_eq_getElem_cons hoff
    rw [hd] at hc
    obtain ⟨n, hn⟩ : ∃ n, s.len = n + 1 := ⟨s.len - 1, by omega⟩
    rw [hn, List.take_succ_cons] at hc
    injection hc with hx hr
    refine ⟨by omega, ?_, ⟨s.ptr, s.off + 1, s.len - 1, s.cap - 1⟩, ?_, ⟨by simp only; omega, ?_⟩,
      ?_, by simp only; omega⟩
    · simp only [sliceGet, hpos, if_true, hptr, Nat.add_zero]
      rw [List.getElem?_eq_getElem hoff, hx]
    · simp only [sliceFrom]
      rw [if_pos (by omega)]
    · simp only [hptr]
      exact ⟨hp.1, by omega⟩
    · simp only [sliceToList, hptr, hn, Nat.add_sub_cancel]
      exact hr

theorem Dequeue_cons {α : Type} (w : World α) (x : Option α) (rest : List (Option α))
    (hw : w.Ok) (hc : contents w = x :: rest) :
    ∃ w', Dequeue w = some ((x, none), w') ∧ w'.Ok ∧ contents w' = rest ∧
      w'.q.items.len + 1 = w.q.items.len := by
  obtain ⟨heap, ⟨⟨locked⟩, items⟩⟩ := w
  obtain ⟨hl, hv⟩ := hw
  simp only at hl hv
  subst hl
  obtain ⟨hne, hget, t, hfrom, htv, htc, htl⟩ := slice_head heap items x rest hv hc
  refine ⟨⟨heap, ⟨⟨false⟩, t⟩⟩, ?_, ⟨rfl, htv⟩, htc, htl⟩
  simp [Dequeue, lockQ, unlockQ, Mutex.Lock, Mutex.Unlock, hne, hget, hfrom]

theorem Peek_cons {α : Type} (w : World α) (x : Option α) (rest : List (Option α))
    (hw : w.Ok) (hc : contents w = x :: rest) :
    Peek w = some ((x, none), w) := by
  obtain ⟨heap, ⟨⟨locked⟩, items⟩⟩ := w
  obtain ⟨hl, hv⟩ := hw
  simp only at hl hv
  subst hl
  obtain ⟨hne, hget, _⟩ := slice_head heap items x rest hv hc
  simp [Peek, lockQ, unlockQ, Mutex.Lock, Mutex.Unlock, hne, hget]

theorem Length_spec {α : Type} (w : World α) (hw : w.Ok) :
    Length w = some (w.q.items.len, w) := by
  obtain ⟨heap, ⟨⟨locked⟩, items⟩⟩ := w
  obtain ⟨hl, _⟩ := hw
  simp only at hl
  subst hl
  simp [Length, lockQ, unlockQ, Mutex.Lock, Mutex.Unlock]

theorem Clear_spec {α : Type} (w : World α) (hw : w.Ok) :
    ∃ w', Clear w = some w' ∧ w'.Ok ∧ contents w' = [] ∧ w'.q.items.len = 0 := by
  obtain ⟨heap, ⟨⟨locked⟩, items⟩⟩ := w
  obtain ⟨hl, _⟩ := hw
  simp only at hl
  subst hl
  refine ⟨⟨heap ++ [[]], ⟨⟨false⟩, ⟨some heap.length, 0, 0, 0⟩⟩⟩, ?_, ⟨rfl, ?_⟩, ?_, rfl⟩
  · simp [Clear, lockQ, unlockQ, Mutex.Lock, Mutex.Unlock, makeEmpty]
  · simp [Slice.Valid]
  · simp [contents, sliceToList]

theorem Values_spec {α : Type} (grow : Nat → Nat → Nat) (w : World α) (hw : w.Ok) :
    ∃ vs w', Values grow w = some (vs, w') ∧ w'.Ok ∧ w'.q = w.q ∧
      contents w' = contents w ∧ vs.Valid w'.heap ∧ sliceToList w'.heap vs = contents w ∧
      vs.len = w.q.items.len ∧ (∀ a, vs.ptr = some a → w.heap.length ≤ a) := by
  obtain ⟨heap, ⟨⟨locked⟩, items⟩⟩ := w
  obtain ⟨hl, hv⟩ := hw
  simp only at hl hv
  subst hl
  have hnil : nilSlice.Valid heap := by simp [Slice.Valid, nilSlice]
  obtain ⟨h1, h2, h3⟩ := goAppend_spec grow heap nilSlice (sliceToList heap items) hnil
  obtain ⟨f1, f2⟩ := goAppend_nil_frame grow heap (sliceToList heap items) items hv
  refine ⟨(goAppend grow heap nilSlice (sliceToList heap items)).2,
    ⟨(goAppend grow heap nilSlice (sliceToList heap items)).1, ⟨⟨false⟩, items⟩⟩,
    ?_, ⟨rfl, f1⟩, rfl, f2, h1, ?_, ?_, ?_⟩
  · simp [Values, lockQ, unlockQ, Mutex.Lock, Mutex.Unlock]
  · rw [h2]; simp [sliceToList, nilSlice, contents]
  · rw [h3, sliceToList_length heap items hv]; simp [nilSlice]
  · intro a ha
    unfold goAppend at ha
    by_cases hc : nilSlice.len + (sliceToList heap items).length ≤ nilSlice.cap
    · rw [if_pos hc] at ha; simp [nilSlice] at ha
    · rw [if_neg hc] at ha
      simp only [Option.some.injEq] at ha
      exact Nat.le_of_eq ha

/-! ## Sequences of calls -/

theorem enqueueAll_spec {α : Type} (grow : Nat → Nat → Nat) (xs : List (Option α)) :
    ∀ w : World α, w.Ok →
      ∃ w', enqueueAll grow w xs = some w' ∧ w'.Ok ∧ contents w' = contents w ++ xs := by
  induction xs with
  | nil => intro w hw; exact ⟨w, rfl, hw, by simp⟩
  | cons x xs ih =>
    intro w hw
    obtain ⟨w1, h1, hok1, hc1, _⟩ := Enqueue_spec grow w x hw
    obtain ⟨w2, h2, hok2, hc2⟩ := ih w1 hok1
    refine ⟨w2, ?_, hok2, ?_⟩
    · simp [enqueueAll, h1, h2]
    · rw [hc2, hc1]; simp

theorem dequeueN_spec {α : Type} (xs : List (Option α)) :
    ∀ (w : World α) (ys : List (Option α)), w.Ok → contents w = xs ++ ys →
      ∃ w', dequeueN xs.length w = some (xs.map (fun x => (x, none)), w') ∧ w'.Ok ∧
        contents w' = ys := by
  induction xs with
  | nil => intro w ys hw hc; exact ⟨w, rfl, hw, by simpa using hc⟩
  | cons x xs ih =>
    intro w ys hw hc
    obtain ⟨w1, h1, hok1, hc1, _⟩ := Dequeue_cons w x (xs ++ ys) hw (by simpa using hc)
    obtain ⟨w2, h2, hok2, hc2⟩ := ih w1 ys hok1 hc1
    exact ⟨w2, by simp [dequeueN, h1, h2], hok2, hc2⟩

/-- Two queues at rest with the same contents answer every call alike, and have the
same contents afterwards. -/
theorem call_congr {α : Type} (grow : Nat → Nat → Nat) (c : Call α) (w1 w2 : World α)
    (h1 : w1.Ok) (h2 : w2.Ok) (hc : contents w1 = contents w2) :
    ∃ o w1' w2', call grow w1 c = some (o, w1') ∧ call grow w2 c = some (o, w2') ∧
      w1'.Ok ∧ w2'.Ok ∧ contents w1' = contents w2' := by
  have hl1 := contents_length w1 h1
  have hl2 := contents_length w2 h2
  have hlen : w1.q.items.len = w2.q.items.len := by rw [← hl1, ← hl2, hc]
  cases c with
  | enqueue item =>
    obtain ⟨a, ha, hoa, hca, _⟩ := Enqueue_spec grow w1 item h1
    obtain ⟨b, hb, hob, hcb, _⟩ := Enqueue_spec grow w2 item h2
    exact ⟨.done, a, b, by simp [call, ha], by simp [call, hb], hoa, hob, by rw [hca, hcb, hc]⟩
  | dequeue =>
    cases hx : contents w1 with
    | nil =>
      have e1 : w1.q.items.len = 0 := by rw [← hl1, hx]; rfl
      have e2 : w2.q.items.len = 0 := by rw [← hlen]; exact e1
      exact ⟨.pair none (some "queue is empty"), w1, w2,
        by simp [call, Dequeue_empty w1 h1 e1], by simp [call, Dequeue_empty w2 h2 e2], h1, h2, hc⟩
    | cons x rest =>
      obtain ⟨a, ha, hoa, hca, _⟩ := Dequeue_cons w1 x rest h1 hx
      obtain ⟨b, hb, hob, hcb, _⟩ := Dequeue_cons w2 x rest h2 (by rw [← hc, hx])
      exact ⟨.pair x none, a, b, by simp [call, ha], by simp [call, hb], hoa, hob,
        by rw [hca, hcb]⟩
  | peek =>
    cases hx : contents w1 with
    | nil =>
      have e1 : w1.q.items.len = 0 := by rw [← hl1, hx]; rfl
      have e2 : w2.q.items.len = 0 := by rw [← hlen]; exact e1
      exact ⟨.pair none (some "queue is empty"), w1, w2,
        by simp [call, Peek_empty w1 h1 e1], by simp [call, Peek_empty w2 h2 e2], h1, h2, hc⟩
    | cons x rest =>
      exact ⟨.pair x none, w1, w2, by simp [call, Peek_cons w1 x rest h1 hx],
        by simp [call, Peek_cons w2 x rest h2 (by rw [← hc, hx])], h1, h2, hc⟩
  | length =>
    exact ⟨.int w1.q.items.len, w1, w2, by simp [call, Length_spec w1 h1],
      by simp [call, Length_spec w2 h2, hlen], h1, h2, hc⟩
  | clear =>
    obtain ⟨a, ha, hoa, hca, _⟩ := Clear_spec w1 h1
    obtain ⟨b, hb, hob, hcb, _⟩ := Clear_spec w2 h2
    exact ⟨.done, a, b, by simp [call, ha], by simp [call, hb], hoa, hob, by rw [hca, hcb]⟩
  | values =>
    obtain ⟨va, a, ha, hoa, _, hca, _, hsa, _⟩ := Values_spec grow w1 h1
    obtain ⟨vb, b, hb, hob, _, hcb, _, hsb, _⟩ := Values_spec grow w2 h2
    exact ⟨.elems (contents w1), a, b, by simp [call, ha, hsa], by simp [call, hb, hsb, hc],
      hoa, hob, by rw [hca, hcb, hc]⟩

theorem runCalls_congr {α : Type} (grow : Nat → Nat → Nat) (cs : List (Call α)) :
    ∀ w1 w2 : World α, w1.Ok → w2.Ok → contents w1 = contents w2 →
      ∃ os w1' w2', runCalls grow cs w1 = some (os, w1') ∧ runCalls grow cs w2 = some (os, w2') := by
  induction cs with
  | nil => intro w1 w2 _ _ _; exact ⟨[], w1, w2, rfl, rfl⟩
  | cons c cs ih =>
    intro w1 w2 h1 h2 hc
    obtain ⟨o, a, b, ha, hb, hoa, hob, hab⟩ := call_congr grow c w1 w2 h1 h2 hc
    obtain ⟨os, a', b', ha', hb'⟩ := ih a b hoa hob hab
    exact ⟨o :: os, a', b', by simp [runCalls, ha, ha'], by simp [runCalls, hb, hb']⟩

/-! ## Writes through a slice held by a caller -/

theorem sliceSet_valid {α : Type} (h h2 : Heap α) (s t : Slice) (i : Nat) (v : Option α)
    (hset : sliceSet h s i v = some h2) (ht : t.Valid h) : t.Valid h2 := by
  unfold sliceSet at hset
  split at hset
  · cases hp : s.ptr with
    | none => simp [hp] at hset
    | some a =>
      simp only [hp, Option.some.injEq] at hset
      subst hset
      obtain ⟨hle, htp⟩ := ht
      refine ⟨hle, ?_⟩
      cases hq : t.ptr with
      | none => simpa [hq] using htp
      | some b =>
        simp only [hq] at htp ⊢
        refine ⟨by simpa using htp.1, ?_⟩
        by_cases hab : a = b
        · subst hab
          rw [heap_getD_set h a _ htp.1]
          simpa using htp.2
        · rw [heap_getD_set_ne h a b _ hab]
          exact htp.2
  · simp at hset

theorem sliceSet_frame {α : Type} (h h2 : Heap α) (s t : Slice) (i : Nat) (v : Option α)
    (hset : sliceSet h s i v = some h2) (hne : ∀ a, s.ptr = some a → t.ptr ≠ some a) :
    sliceToList h2 t = sliceToList h t := by
  unfold sliceSet at hset
  split at hset
  · cases hp : s.ptr with
    | none => simp [hp] at hset
    | some a =>
      simp only [hp, Option.some.injEq] at hset
      subst hset
      unfold sliceToList
      cases hq : t.ptr with
      | none => rfl
      | some b =>
        have hab : a ≠ b := fun e => hne a hp (by rw [hq, e])
        simp only [heap_getD_set_ne h a b _ hab]
  · simp at hset

theorem sliceSet_length {α : Type} (h h2 : Heap α) (s : Slice) (i : Nat) (v : Option α)
    (hset : sliceSet h s i v = some h2) : h2.length = h.length := by
  unfold sliceSet at hset
  split at hset
  · cases hp : s.ptr with
    | none => simp [hp] at hset
    | some a =>
      simp only [hp, Option.some.injEq] at hset
      subst hset
      simp
  · simp at hset

theorem sliceSetMany_frame {α : Type} (s t : Slice) (ws : List (Nat × Option α)) :
    ∀ h h2 : Heap α, sliceSetMany s h ws = some h2 → t.Valid h →
      (∀ a, s.ptr = some a → t.ptr ≠ some a) →
      t.Valid h2 ∧ sliceToList h2 t = sliceToList h t := by
  induction ws with
  | nil =>
    intro h h2 hs ht _
    simp only [sliceSetMany, Option.some.injEq] at hs
    subst hs
    exact ⟨ht, rfl⟩
  | cons p ws ih =>
    intro h h2 hs ht hne
    obtain ⟨i, v⟩ := p
    simp only [sliceSetMany] at hs
    cases h1 : sliceSet h s i v with
    | none => simp [h1] at hs
    | some h' =>
      simp only [h1, Option.some_bind] at hs
      obtain ⟨r1, r2⟩ := ih h' h2 hs (sliceSet_valid h h' s t i v h1 ht) hne
      exact ⟨r1, by rw [r2, sliceSet_frame h h' s t i v h1 hne]⟩

theorem sliceSet_inbounds {α : Type} (h : Heap α) (s : Slice) (i : Nat) (v : Option α)
    (hs : s.Valid h) (hi : i < s.len) : ∃ h2, sliceSet h s i v = some h2 := by
  obtain ⟨hle, hp⟩ := hs
  cases hptr : s.ptr with
  | none => simp only [hptr] at hp; omega
  | some a =>
    refine ⟨h.set a ((h.getD a []).set (s.off + i) v), ?_⟩
    simp only [sliceSet, hi, if_true, hptr]

/-! ## The claims about `SafeQueue` -/

/-- C1 (FIFO law): for every list `xs`, enqueueing the elements of `xs` in order on a
queue from `NewSafeQueue()` and then calling `Dequeue` `len(xs)` times makes every
call succeed, the i-th call returning the i-th element of `xs` with a nil error, and
`Length()` is 0 afterwards. -/
theorem fifo_law {α : Type} (grow : Nat → Nat → Nat) (h : Heap α) (xs : List (Option α)) :
    ∃ w1 w2, enqueueAll grow (NewSafeQueue h) xs = some w1 ∧
      dequeueN xs.length w1 = some (xs.map (fun x => (x, none)), w2) ∧
      Length w2 = some (0, w2) := by
  obtain ⟨hok, hc, _⟩ := NewSafeQueue_ok h
  obtain ⟨w1, h1, hok1, hc1⟩ := enqueueAll_spec grow xs (NewSafeQueue h) hok
  rw [hc, List.nil_append] at hc1
  obtain ⟨w2, h2, hok2, hc2⟩ := dequeueN_spec xs w1 [] hok1 (by simpa using hc1)
  refine ⟨w1, w2, h1, h2, ?_⟩
  have hl := contents_length w2 hok2
  rw [hc2] at hl
  rw [Length_spec w2 hok2, ← hl]
  rfl

/-- C2: on a queue at rest `Dequeue` returns, and it returns an error exactly when the
queue has zero elements; then the item is nil, the error is "queue is empty" and the
state is the one before the call.  On a non-empty queue the error is nil.  A queue
fresh from `NewSafeQueue()` and a queue just cleared are such empty queues. -/
theorem Dequeue_fails_iff_empty {α : Type} (w : World α) (hw : w.Ok) :
    (∃ item err w', Dequeue w = some ((item, err), w') ∧
      (err ≠ none ↔ contents w = []) ∧
      (contents w = [] → item = none ∧ err = some "queue is empty" ∧ w' = w) ∧
      (contents w ≠ [] → err = none)) ∧
    (∀ h : Heap α, Dequeue (NewSafeQueue h)
      = some ((none, some "queue is empty"), NewSafeQueue h)) ∧
    (∃ wc, Clear w = some wc ∧ Dequeue wc = some ((none, some "queue is empty"), wc)) := by
  refine ⟨?_, ?_, ?_⟩
  · cases hx : contents w with
    | nil =>
      have e : w.q.items.len = 0 := by rw [← contents_length w hw, hx]; rfl
      exact ⟨none, some "queue is empty", w, Dequeue_empty w hw e, by simp, by simp, by simp⟩
    | cons x rest =>
      obtain ⟨w', h1, _⟩ := Dequeue_cons w x rest hw hx
      exact ⟨x, none, w', h1, by simp, by simp, by simp⟩
  · intro h
    obtain ⟨hok, _, hl⟩ := NewSafeQueue_ok h
    exact Dequeue_empty _ hok hl
  · obtain ⟨wc, h1, hok, _, hl⟩ := Clear_spec w hw
    exact ⟨wc, h1, Dequeue_empty wc hok hl⟩

theorem Dequeue_fails_iff_empty_witness :
    sampleWorld.Ok ∧
    ((∃ item err w', Dequeue sampleWorld = some ((item, err), w') ∧
      (err ≠ none ↔ contents sampleWorld = []) ∧
      (contents sampleWorld = [] → item = none ∧ err = some "queue is empty" ∧ w' = sampleWorld) ∧
      (contents sampleWorld ≠ [] → err = none)) ∧
    (∀ h : Heap Nat, Dequeue (NewSafeQueue h)
      = some ((none, some "queue is empty"), NewSafeQueue h)) ∧
    (∃ wc, Clear sampleWorld = some wc ∧
      Dequeue wc = some ((none, some "queue is empty"), wc))) :=
  ⟨by decide, Dequeue_fails_iff_empty sampleWorld (by decide)⟩

/-- C3: on a queue at rest with contents `x :: rest`, `Dequeue` returns `x` with a nil
error and leaves the queue holding exactly `rest`; `Length()` afterwards is one less
than before. -/
theorem Dequeue_head {α : Type} (w : World α) (x : Option α) (rest : List (Option α))
    (hw : w.Ok) (hc : contents w = x :: rest) :
    ∃ w', Dequeue w = some ((x, none), w') ∧ contents w' = rest ∧
      ∃ n, Length w = some (n + 1, w) ∧ Length w' = some (n, w') := by
  obtain ⟨w', h1, hok, hc', hl⟩ := Dequeue_cons w x rest hw hc
  refine ⟨w', h1, hc', w'.q.items.len, ?_, Length_spec w' hok⟩
  rw [Length_spec w hw, hl]

theorem Dequeue_head_witness :
    sampleWorld.Ok ∧ contents sampleWorld = some 1 :: [some 2, some 3] ∧
    ∃ w', Dequeue sampleWorld = some ((some 1, none), w') ∧ contents w' = [some 2, some 3] ∧
      ∃ n, Length sampleWorld = some (n + 1, sampleWorld) ∧ Length w' = some (n, w') :=
  ⟨by decide, by decide, Dequeue_head sampleWorld (some 1) [some 2, some 3] (by decide) (by decide)⟩

/-- C4: on a queue at rest `Enqueue(item)` returns, the contents afterwards are the
contents before followed by `item`, and `Length()` is one more than before. -/
theorem Enqueue_appends {α : Type} (grow : Nat → Nat → Nat) (w : World α) (item : Option α)
    (hw : w.Ok) :
    ∃ w', Enqueue grow w item = some w' ∧ contents w' = contents w ++ [item] ∧
      ∃ n, Length w = some (n, w) ∧ Length w' = some (n + 1, w') := by
  obtain ⟨w', h1, hok, hc, hl⟩ := Enqueue_spec grow w item hw
  refine ⟨w', h1, hc, w.q.items.len, Length_spec w hw, ?_⟩
  rw [Length_spec w' hok, hl]

theorem Enqueue_appends_witness :
    sampleWorld.Ok ∧
    ∃ w', Enqueue sampleGrow sampleWorld (some 7) = some w' ∧
      contents w' = contents sampleWorld ++ [some 7] ∧
      ∃ n, Length sampleWorld = some (n, sampleWorld) ∧ Length w' = some (n + 1, w') :=
  ⟨by decide, Enqueue_appends sampleGrow sampleWorld (some 7) (by decide)⟩

/-- C5: on a queue at rest, empty or not, `Peek` returns and leaves the state as it
was: `Length()` is the same before and after, and every sequence of calls run after
the `Peek` returns what it returns without the `Peek`. -/
theorem Peek_frame {α : Type} (grow : Nat → Nat → Nat) (w : World α) (hw : w.Ok) :
    ∃ r w', Peek w = some (r, w') ∧ w' = w ∧
      (∃ n, Length w = some (n, w) ∧ Length w' = some (n, w')) ∧
      ∀ cs : List (Call α), ∃ os a b,
        runCalls grow cs w' = some (os, a) ∧ runCalls grow cs w = some (os, b) := by
  have hp : ∃ r, Peek w = some (r, w) := by
    cases hx : contents w with
    | nil =>
      have e : w.q.items.len = 0 := by rw [← contents_length w hw, hx]; rfl
      exact ⟨_, Peek_empty w hw e⟩
    | cons x rest => exact ⟨_, Peek_cons w x rest hw hx⟩
  obtain ⟨r, hr⟩ := hp
  exact ⟨r, w, hr, rfl, ⟨_, Length_spec w hw, Length_spec w hw⟩,
    fun cs => runCalls_congr grow cs w w hw hw rfl⟩

theorem Peek_frame_witness :
    sampleWorld.Ok ∧
    ∃ r w', Peek sampleWorld = some (r, w') ∧ w' = sampleWorld ∧
      (∃ n, Length sampleWorld = some (n, sampleWorld) ∧ Length w' = some (n, w')) ∧
      ∀ cs : List (Call Nat), ∃ os a b,
        runCalls sampleGrow cs w' = some (os, a) ∧
          runCalls sampleGrow cs sampleWorld = some (os, b) :=
  ⟨by decide, Peek_frame sampleGrow sampleWorld (by decide)⟩

/-- C6: on a queue at rest `Peek` returns the pair `(item, err)` that a `Dequeue` called
right after it returns: on a non-empty queue the head with a nil error, on an empty
queue a nil item with the error "queue is empty". -/
theorem Peek_agrees_Dequeue {α : Type} (w : World α) (hw : w.Ok) :
    ∃ item err w1 w2, Peek w = some ((item, err), w1) ∧
      Dequeue w1 = some ((item, err), w2) ∧
      (contents w ≠ [] → err = none ∧ (contents w).head? = some item) ∧
      (contents w = [] → item = none ∧ err = some "queue is empty") := by
  cases hx : contents w with
  | nil =>
    have e : w.q.items.len = 0 := by rw [← contents_length w hw, hx]; rfl
    exact ⟨none, some "queue is empty", w, w, Peek_empty w hw e, Dequeue_empty w hw e,
      by simp, by simp⟩
  | cons x rest =>
    obtain ⟨w2, h2, _⟩ := Dequeue_cons w x rest hw hx
    exact ⟨x, none, w, w2, Peek_cons w x rest hw hx, h2, by simp, by simp⟩

theorem Peek_agrees_Dequeue_witness :
    sampleWorld.Ok ∧
    ∃ item err w1 w2, Peek sampleWorld = some ((item, err), w1) ∧
      Dequeue w1 = some ((item, err), w2) ∧
      (contents sampleWorld ≠ [] → err = none ∧ (contents sampleWorld).head? = some item) ∧
      (contents sampleWorld = [] → item = none ∧ err = some "queue is empty") :=
  ⟨by decide, Peek_agrees_Dequeue sampleWorld (by decide)⟩

/-- C7: on a queue at rest `Values()` returns a slice whose elements are the contents
head first, that is the items `Length()` successive `Dequeue` calls return; its length
is `Length()`; the queue object and its contents are unchanged by the call; and
whatever the caller then assigns to elements of the returned slice, every later
sequence of calls on the queue returns what it returns without those assignments.
After `Enqueue(a); Enqueue(b)` on a new queue the elements are `[a, b]`. -/
theorem Values_snapshot {α : Type} (grow : Nat → Nat → Nat) (w : World α) (hw : w.Ok) :
    (∃ vs w', Values grow w = some (vs, w') ∧
      sliceToList w'.heap vs = contents w ∧
      (∃ wd, dequeueN vs.len w
        = some ((sliceToList w'.heap vs).map (fun x => (x, none)), wd)) ∧
      Length w = some (vs.len, w) ∧
      w'.q = w.q ∧ contents w' = contents w ∧
      (∀ i v, i < vs.len → ∃ h2, sliceSet w'.heap vs i v = some h2) ∧
      (∀ ws h2, sliceSetMany vs w'.heap ws = some h2 →
        ∀ cs : List (Call α), ∃ os a b,
          runCalls grow cs { w' with heap := h2 } = some (os, a) ∧
            runCalls grow cs w' = some (os, b))) ∧
    (∀ (h : Heap α) (a b : Option α), ∃ w1 vs w2,
      enqueueAll grow (NewSafeQueue h) [a, b] = some w1 ∧
        Values grow w1 = some (vs, w2) ∧ sliceToList w2.heap vs = [a, b]) := by
  constructor
  · obtain ⟨vs, w', h1, hok, hq, hc, hvv, hvs, hvl, hfresh⟩ := Values_spec grow w hw
    have hlen := contents_length w hw
    obtain ⟨wd, hd, _, _⟩ := dequeueN_spec (contents w) w [] hw (by simp)
    refine ⟨vs, w', h1, hvs, ⟨wd, ?_⟩, ?_, hq, hc, ?_, ?_⟩
    · rw [hvs, hvl, ← hlen]; exact hd
    · rw [Length_spec w hw, hvl]
    · intro i v hi
      exact sliceSet_inbounds w'.heap vs i v hvv hi
    · intro ws h2 hset cs
      have hne : ∀ a, vs.ptr = some a → w'.q.items.ptr ≠ some a := by
        intro a ha hb
        have h3 := hfresh a ha
        have h4 := hw.2.2
        rw [hq] at hb
        simp only [hb] at h4
        omega
      obtain ⟨r1, r2⟩ := sliceSetMany_frame vs w'.q.items ws w'.heap h2 hset hok.2 hne
      exact runCalls_congr grow cs { w' with heap := h2 } w' ⟨hok.1, r1⟩ hok r2
  · intro h a b
    obtain ⟨hok, hc, _⟩ := NewSafeQueue_ok h
    obtain ⟨w1, h1, hok1, hc1⟩ := enqueueAll_spec grow [a, b] (NewSafeQueue h) hok
    obtain ⟨vs, w2, h2, _, _, _, _, hvs, _⟩ := Values_spec grow w1 hok1
    exact ⟨w1, vs, w2, h1, h2, by rw [hvs, hc1, hc]; rfl⟩

theorem Values_snapshot_witness :
    sampleWorld.Ok ∧
    ((∃ vs w', Values sampleGrow sampleWorld = some (vs, w') ∧
      sliceToList w'.heap vs = contents sampleWorld ∧
      (∃ wd, dequeueN vs.len sampleWorld
        = some ((sliceToList w'.heap vs).map (fun x => (x, none)), wd)) ∧
      Length sampleWorld = some (vs.len, sampleWorld) ∧
      w'.q = sampleWorld.q ∧ contents w' = contents sampleWorld ∧
      (∀ i v, i < vs.len → ∃ h2, sliceSet w'.heap vs i v = some h2) ∧
      (∀ ws h2, sliceSetMany vs w'.heap ws = some h2 →
        ∀ cs : List (Call Nat), ∃ os a b,
          runCalls sampleGrow cs { w' with heap := h2 } = some (os, a) ∧
            runCalls sampleGrow cs w' = some (os, b))) ∧
    (∀ (h : Heap Nat) (a b : Option Nat), ∃ w1 vs w2,
      enqueueAll sampleGrow (NewSafeQueue h) [a, b] = some w1 ∧
        Values sampleGrow w1 = some (vs, w2) ∧ sliceToList w2.heap vs = [a, b])) :=
  ⟨by decide, Values_snapshot sampleGrow sampleWorld (by decide)⟩

/-- C8: on a queue at rest `Clear()` returns; right after it `Length()` is 0, `Values()`
has no elements, `Dequeue` and `Peek` return a nil item with the error "queue is
empty", and every later sequence of calls returns what it returns on a queue fresh
from `NewSafeQueue()`. -/
theorem Clear_empties {α : Type} (grow : Nat → Nat → Nat) (w : World α) (hw : w.Ok) :
    ∃ w', Clear w = some w' ∧ Length w' = some (0, w') ∧
      (∃ vs w'', Values grow w' = some (vs, w'') ∧ sliceToList w''.heap vs = [] ∧ vs.len = 0) ∧
      Dequeue w' = some ((none, some "queue is empty"), w') ∧
      Peek w' = some ((none, some "queue is empty"), w') ∧
      ∀ (h : Heap α) (cs : List (Call α)), ∃ os a b,
        runCalls grow cs w' = some (os, a) ∧ runCalls grow cs (NewSafeQueue h) = some (os, b) := by
  obtain ⟨w', h1, hok, hc, hl⟩ := Clear_spec w hw
  obtain ⟨vs, w'', h2, _, _, _, _, hvs, hvl, _⟩ := Values_spec grow w' hok
  refine ⟨w', h1, ?_, ⟨vs, w'', h2, by rw [hvs, hc], by rw [hvl, hl]⟩,
    Dequeue_empty w' hok hl, Peek_empty w' hok hl, ?_⟩
  · rw [Length_spec w' hok, hl]
  · intro h cs
    obtain ⟨hok0, hc0, _⟩ := NewSafeQueue_ok h
    exact runCalls_congr grow cs w' (NewSafeQueue h) hok hok0 (by rw [hc, hc0])

theorem Clear_empties_witness :
    sampleWorld.Ok ∧
    ∃ w', Clear sampleWorld = some w' ∧ Length w' = some (0, w') ∧
      (∃ vs w'', Values sampleGrow w' = some (vs, w'') ∧ sliceToList w''.heap vs = [] ∧
        vs.len = 0) ∧
      Dequeue w' = some ((none, some "queue is empty"), w') ∧
      Peek w' = some ((none, some "queue is empty"), w') ∧
      ∀ (h : Heap Nat) (cs : List (Call Nat)), ∃ os a b,
        runCalls sampleGrow cs w' = some (os, a) ∧
          runCalls sampleGrow cs (NewSafeQueue h) = some (os, b) :=
  ⟨by decide, Clear_empties sampleGrow sampleWorld (by decide)⟩


/-! ## Concurrent `Enqueue` calls -/

theorem list_split_at {β : Type} (l : List β) (i : Nat) (t : β) (h : l[i]? = some t) :
    ∃ l1 l2, l = l1 ++ t :: l2 ∧ ∀ t', l.set i t' = l1 ++ t' :: l2 := by
  obtain ⟨hi, ht⟩ := List.getElem?_eq_some.mp h
  refine ⟨l.take i, l.drop (i + 1), ?_, ?_⟩
  · rw [← ht, List.getElem_cons_drop, List.take_append_drop]
  · intro t'
    rw [List.set_eq_take_append_cons_drop, if_pos hi]

theorem initConc_inv {α : Type} (h : Heap α) (progs : List (List (Option α))) :
    Inv progs (initConc h progs) := by
  obtain ⟨hok, hc, _⟩ := NewSafeQueue_ok h
  have hflat : ∀ ps : List (List (Option α)),
      (List.map (fun t : Thread α => t.appended)
        (ps.map fun p => { items := p, next := 0, pc := .atLock, loaded := nilSlice })).flatten
        = [] := by
    intro ps
    induction ps with
    | nil => rfl
    | cons p ps ih => simp [Thread.appended] at ih ⊢
  refine ⟨?_, hok.2, ?_, ?_, ?_, ?_, ?_⟩
  · simp [initConc, Function.comp_def]
  · simp only [initConc]
    have hl : (NewSafeQueue h).q.mu.locked = false := rfl
    simp [hl, List.countP_eq_zero, Thread.inCS]
  · intro t ht hpc
    simp only [initConc, List.mem_map] at ht
    obtain ⟨p, _, rfl⟩ := ht
    simp at hpc
  · intro t ht hcs
    simp only [initConc, List.mem_map] at ht
    obtain ⟨p, _, rfl⟩ := ht
    simp [Thread.inCS] at hcs
  · show List.Perm (contents (NewSafeQueue h)) _
    rw [hc]
    simp only [initConc]
    rw [hflat progs]
  · intro t ht
    simp only [initConc, List.mem_map] at ht
    obtain ⟨p, _, rfl⟩ := ht
    simp [Thread.appended]

/-- A step of one thread keeps the invariant, and never hits the fatal error. -/
theorem stepThread_inv {α : Type} (grow : Nat → Nat → Nat) (progs : List (List (Option α)))
    (w : World α) (l1 l2 : List (Thread α)) (t : Thread α)
    (hinv : Inv progs { world := w, threads := l1 ++ t :: l2 }) :
    ∃ w' t', stepThread grow w t = some (w', t') ∧
      Inv progs { world := w', threads := l1 ++ t' :: l2 } := by
  obtain ⟨hitems, hvalid, hmutex, hloaded, hcur, hperm, hsub⟩ := hinv
  simp only [List.map_append, List.map_cons, List.countP_append, List.countP_cons,
    List.flatten_append, List.flatten_cons, List.mem_append, List.mem_cons] at *
  cases hitem : t.items[t.next]? with
  | none =>
    refine ⟨w, t, by simp [stepThread, hitem], ⟨?_, hvalid, ?_, ?_, ?_, ?_, ?_⟩⟩ <;>
      simp only [List.map_append, List.map_cons, List.countP_append, List.countP_cons,
        List.flatten_append, List.flatten_cons, List.mem_append, List.mem_cons] <;> assumption
  | some item =>
    have hnext : t.next < t.items.length := (List.getElem?_eq_some.mp hitem).1
    have hothers : t.inCS = true → ∀ s, s ∈ l1 ∨ s ∈ l2 → s.inCS = false := by
      intro hcs s hs
      rw [hcs] at hmutex
      have h0 : List.countP (fun t : Thread α => t.inCS) l1 = 0 ∧
          List.countP (fun t : Thread α => t.inCS) l2 = 0 := by
        simp only [↓reduceIte] at hmutex
        split at hmutex <;> omega
      rcases hs with hs | hs
      · have := List.countP_eq_zero.mp h0.1 s hs
        simpa using this
      · have := List.countP_eq_zero.mp h0.2 s hs
        simpa using this
    cases hpc : t.pc with
    | atLock =>
      have hcs : t.inCS = false := by simp [Thread.inCS, hpc]
      cases hl : w.q.mu.locked with
      | true =>
        refine ⟨w, t, by simp [stepThread, hitem, hpc, lockQ, Mutex.Lock, hl],
          ⟨?_, hvalid, ?_, ?_, ?_, ?_, ?_⟩⟩ <;>
        simp only [List.map_append, List.map_cons, List.countP_append, List.countP_cons,
          List.flatten_append, List.flatten_cons, List.mem_append, List.mem_cons] <;> assumption
      | false =>
        refine ⟨{ w with q := { w.q with mu := ⟨true⟩ } }, { t with pc := .atLoad },
          by simp [stepThread, hitem, hpc, lockQ, Mutex.Lock, hl],
          ⟨?_, hvalid, ?_, ?_, ?_, ?_, ?_⟩⟩ <;>
        simp only [List.map_append, List.map_cons, List.countP_append, List.countP_cons,
          List.flatten_append, List.flatten_cons, List.mem_append, List.mem_cons]
        · exact hitems
        · have e : ({ t with pc := PC.atLoad } : Thread α).inCS = true := rfl
          simp only [hl, hcs, e, Bool.false_eq_true, ↓reduceIte] at hmutex ⊢
          omega
        · intro s hs hspc
          rcases hs with hs | rfl | hs
          · exact hloaded s (Or.inl hs) hspc
          · simp at hspc
          · exact hloaded s (Or.inr (Or.inr hs)) hspc
        · intro s hs hscs
          rcases hs with hs | rfl | hs
          · exact hcur s (Or.inl hs) hscs
          · exact hnext
          · exact hcur s (Or.inr (Or.inr hs)) hscs
        · simpa [Thread.appended, hpc, contents] using hperm
        · intro s hs
          rcases hs with hs | rfl | hs
          · exact hsub s (Or.inl hs)
          · simpa [Thread.appended, hpc, contents] using hsub t (Or.inr (Or.inl rfl))
          · exact hsub s (Or.inr (Or.inr hs))
    | atLoad =>
      have hcs : t.inCS = true := by simp [Thread.inCS, hpc]
      refine ⟨w, { t with loaded := w.q.items, pc := .atStore },
        by simp [stepThread, hitem, hpc], ⟨?_, hvalid, ?_, ?_, ?_, ?_, ?_⟩⟩ <;>
      simp only [List.map_append, List.map_cons, List.countP_append, List.countP_cons,
        List.flatten_append, List.flatten_cons, List.mem_append, List.mem_cons]
      · exact hitems
      · have e : ({ t with loaded := w.q.items, pc := PC.atStore } : Thread α).inCS = true := rfl
        simp only [hcs, e] at hmutex ⊢
        exact hmutex
      · intro s hs hspc
        rcases hs with hs | rfl | hs
        · exact hloaded s (Or.inl hs) hspc
        · rfl
        · exact hloaded s (Or.inr (Or.inr hs)) hspc
      · intro s hs hscs
        rcases hs with hs | rfl | hs
        · exact hcur s (Or.inl hs) hscs
        · exact hnext
        · exact hcur s (Or.inr (Or.inr hs)) hscs
      · simpa [Thread.appended, hpc] using hperm
      · intro s hs
        rcases hs with hs | rfl | hs
        · exact hsub s (Or.inl hs)
        · simpa [Thread.appended, hpc] using hsub t (Or.inr (Or.inl rfl))
        · exact hsub s (Or.inr (Or.inr hs))
    | atStore =>
      have hcs : t.inCS = true := by simp [Thread.inCS, hpc]
      have hld : t.loaded = w.q.items := hloaded t (Or.inr (Or.inl rfl)) hpc
      obtain ⟨g1, g2, _⟩ := goAppend_spec grow w.heap w.q.items [item] hvalid
      have happ : t.items.take (t.next + 1) = t.items.take t.next ++ [item] := by
        rw [List.take_succ, hitem]; rfl
      have hAt : t.appended = t.items.take t.next := by simp [Thread.appended, hpc]
      have hA' : ({ t with pc := PC.atUnlock } : Thread α).appended
          = t.appended ++ [item] := by
        rw [hAt]; simpa [Thread.appended] using happ
      refine ⟨{ heap := (goAppend grow w.heap w.q.items [item]).1,
                q := { w.q with items := (goAppend grow w.heap w.q.items [item]).2 } },
        { t with pc := .atUnlock },
        by simp [stepThread, hitem, hpc, hld], ⟨?_, g1, ?_, ?_, ?_, ?_, ?_⟩⟩ <;>
      simp only [List.map_append, List.map_cons, List.countP_append, List.countP_cons,
        List.flatten_append, List.flatten_cons, List.mem_append, List.mem_cons]
      · exact hitems
      · have e : ({ t with pc := PC.atUnlock } : Thread α).inCS = true := rfl
        simp only [hcs, e] at hmutex ⊢
        exact hmutex
      · intro s hs hspc
        rcases hs with hs | rfl | hs
        · have := hothers hcs s (Or.inl hs)
          simp [Thread.inCS, hspc] at this
        · simp at hspc
        · have := hothers hcs s (Or.inr hs)
          simp [Thread.inCS, hspc] at this
      · intro s hs hscs
        rcases hs with hs | rfl | hs
        · exact hcur s (Or.inl hs) hscs
        · exact hnext
        · exact hcur s (Or.inr (Or.inr hs)) hscs
      · show List.Perm (sliceToList _ _) _
        rw [g2]
        rw [hA']
        have hp1 := List.Perm.append_right [item] hperm
        refine hp1.trans ?_
        simp only [List.append_assoc]
        exact List.Perm.append_left _ (List.Perm.append_left _ List.perm_append_comm)
      · intro s hs
        show List.Sublist _ (sliceToList _ _)
        rw [g2]
        rcases hs with hs | rfl | hs
        · exact (hsub s (Or.inl hs)).trans (List.sublist_append_left _ _)
        · rw [hA']
          exact List.Sublist.append (hsub t (Or.inr (Or.inl rfl))) (List.Sublist.refl _)
        · exact (hsub s (Or.inr (Or.inr hs))).trans (List.sublist_append_left _ _)
    | atUnlock =>
      have hcs : t.inCS = true := by simp [Thread.inCS, hpc]
      have hl : w.q.mu.locked = true := by
        cases hb : w.q.mu.locked with
        | true => rfl
        | false =>
          simp only [hb, hcs, Bool.false_eq_true, ↓reduceIte] at hmutex
          omega
      have hA' : ({ t with pc := PC.atLock, next := t.next + 1 } : Thread α).appended
          = t.appended := by simp [Thread.appended, hpc]
      refine ⟨{ w with q := { w.q with mu := ⟨false⟩ } },
        { t with pc := .atLock, next := t.next + 1 },
        by simp [stepThread, hitem, hpc, unlockQ, Mutex.Unlock, hl],
        ⟨?_, hvalid, ?_, ?_, ?_, ?_, ?_⟩⟩ <;>
      simp only [List.map_append, List.map_cons, List.countP_append, List.countP_cons,
        List.flatten_append, List.flatten_cons, List.mem_append, List.mem_cons]
      · exact hitems
      · have e : ({ t with pc := PC.atLock, next := t.next + 1 } : Thread α).inCS = false := rfl
        simp only [hl, hcs, e, Bool.false_eq_true, ↓reduceIte] at hmutex ⊢
        omega
      · intro s hs hspc
        rcases hs with hs | rfl | hs
        · exact hloaded s (Or.inl hs) hspc
        · simp at hspc
        · exact hloaded s (Or.inr (Or.inr hs)) hspc
      · intro s hs hscs
        rcases hs with hs | rfl | hs
        · exact hcur s (Or.inl hs) hscs
        · simp [Thread.inCS] at hscs
        · exact hcur s (Or.inr (Or.inr hs)) hscs
      · rw [hA']; exact hperm
      · intro s hs
        rcases hs with hs | rfl | hs
        · exact hsub s (Or.inl hs)
        · rw [hA']; exact hsub t (Or.inr (Or.inl rfl))
        · exact hsub s (Or.inr (Or.inr hs))

theorem step_inv {α : Type} (grow : Nat → Nat → Nat) (progs : List (List (Option α)))
    (c : Conc α) (i : Nat) (hinv : Inv progs c) :
    ∃ c', step grow c i = some c' ∧ Inv progs c' := by
  obtain ⟨w, threads⟩ := c
  cases ht : threads[i]? with
  | none => exact ⟨⟨w, threads⟩, by simp [step, ht], hinv⟩
  | some t =>
    obtain ⟨l1, l2, hsplit, hset⟩ := list_split_at threads i t ht
    rw [hsplit] at hinv
    obtain ⟨w', t', hstep, hinv'⟩ := stepThread_inv grow progs w l1 l2 t hinv
    refine ⟨⟨w', l1 ++ t' :: l2⟩, ?_, hinv'⟩
    simp only [step, ht, hstep, Option.map_some', hset]

theorem runSched_inv {α : Type} (grow : Nat → Nat → Nat) (progs : List (List (Option α)))
    (sched : List Nat) :
    ∀ c : Conc α, Inv progs c → ∃ c', runSched grow sched c = some c' ∧ Inv progs c' := by
  induction sched with
  | nil => intro c hinv; exact ⟨c, rfl, hinv⟩
  | cons i sched ih =>
    intro c hinv
    obtain ⟨c1, h1, hinv1⟩ := step_inv grow progs c i hinv
    obtain ⟨c2, h2, hinv2⟩ := ih c1 hinv1
    exact ⟨c2, by simp [runSched, h1, h2], hinv2⟩

/-- Draining a queue at rest returns its contents, head first, once the bound exceeds
their number. -/
theorem drain_spec {α : Type} (xs : List (Option α)) :
    ∀ (w : World α) (fuel : Nat), w.Ok → contents w = xs → xs.length < fuel →
      ∃ w', drain fuel w = some (xs, w') := by
  induction xs with
  | nil =>
    intro w fuel hw hc hf
    obtain ⟨n, rfl⟩ : ∃ n, fuel = n + 1 := ⟨fuel - 1, by simp at hf; omega⟩
    have e : w.q.items.len = 0 := by rw [← contents_length w hw, hc]; rfl
    exact ⟨w, by simp [drain, Dequeue_empty w hw e]⟩
  | cons x xs ih =>
    intro w fuel hw hc hf
    obtain ⟨n, rfl⟩ : ∃ n, fuel = n + 1 := ⟨fuel - 1, by simp at hf; omega⟩
    obtain ⟨w1, h1, hok1, hc1, _⟩ := Dequeue_cons w x xs hw hc
    obtain ⟨w2, h2⟩ := ih w1 n hok1 hc1 (by simp at hf; omega)
    exact ⟨w2, by simp [drain, h1, h2]⟩

theorem sum_const_length {α : Type} (l : List (List α)) (K : Nat) (h : ∀ p ∈ l, p.length = K) :
    (l.map List.length).sum = l.length * K := by
  induction l with
  | nil => simp
  | cons a l ih =>
    simp only [List.map_cons, List.sum_cons, List.length_cons]
    rw [ih (fun p hp => h p (List.mem_cons_of_mem _ hp)), h a (List.mem_cons_self _ _)]
    ring

/-- When every thread is done the queue is at rest and holds an interleaving of the
threads' items. -/
theorem allDone_inv {α : Type} (progs : List (List (Option α))) (c : Conc α)
    (hinv : Inv progs c) (hdone : allDone c = true) :
    c.world.Ok ∧ List.Perm (contents c.world) progs.flatten ∧
      ∀ p ∈ progs, List.Sublist p (contents c.world) := by
  obtain ⟨hitems, hvalid, hmutex, _, hcur, hperm, hsub⟩ := hinv
  have hall : ∀ t ∈ c.threads, t.items.length ≤ t.next := by
    intro t ht
    have := List.all_eq_true.mp hdone t ht
    simpa using this
  have happ : ∀ t ∈ c.threads, t.appended = t.items := by
    intro t ht
    exact List.take_of_length_le (Nat.le_trans (hall t ht) (Nat.le_add_right _ _))
  have hmap : c.threads.map (fun t => t.appended) = progs := by
    rw [← hitems]
    exact List.map_congr_left happ
  refine ⟨⟨?_, hvalid⟩, ?_, ?_⟩
  · cases hl : c.world.q.mu.locked with
    | false => rfl
    | true =>
      rw [hl] at hmutex
      simp only [↓reduceIte] at hmutex
      have hpos : 0 < List.countP (fun t : Thread α => t.inCS) c.threads := by omega
      obtain ⟨t, ht, hcs⟩ := List.countP_pos_iff.mp hpos
      have h1 := hcur t ht hcs
      have h2 := hall t ht
      omega
  · rw [← hmap]; exact hperm
  · intro p hp
    rw [← hitems] at hp
    obtain ⟨t, ht, rfl⟩ := List.mem_map.mp hp
    rw [← happ t ht]
    exact hsub t ht

/-! ## Concurrent `Enqueue` calls: progress -/

theorem runSched_append {α : Type} (grow : Nat → Nat → Nat) (s1 s2 : List Nat) :
    ∀ c : Conc α, runSched grow (s1 ++ s2) c = (runSched grow s1 c).bind (runSched grow s2) := by
  induction s1 with
  | nil => intro c; rfl
  | cons i s1 ih =>
    intro c
    simp only [List.cons_append, runSched]
    cases step grow c i with
    | none => rfl
    | some c1 => exact ih c1

/-- A step of a thread either changes nothing or is one of the steps it has to make. -/
theorem stepThread_work {α : Type} (grow : Nat → Nat → Nat) (w w' : World α) (t t' : Thread α)
    (h : stepThread grow w t = some (w', t')) :
    (w' = w ∧ t' = t) ∨ t'.work + 1 = t.work := by
  unfold stepThread at h
  cases hitem : t.items[t.next]? with
  | none =>
    simp only [hitem, Option.some.injEq, Prod.mk.injEq] at h
    exact Or.inl ⟨h.1.symm, h.2.symm⟩
  | some item =>
    have hnext : t.next < t.items.length := (List.getElem?_eq_some.mp hitem).1
    simp only [hitem] at h
    cases hpc : t.pc with
    | atLock =>
      simp only [hpc] at h
      cases hl : lockQ w with
      | none =>
        simp only [hl, Option.some.injEq, Prod.mk.injEq] at h
        exact Or.inl ⟨h.1.symm, h.2.symm⟩
      | some w1 =>
        simp only [hl, Option.some.injEq, Prod.mk.injEq] at h
        right
        rw [← h.2]
        simp only [Thread.work, hpc]
        omega
    | atLoad =>
      simp only [hpc, Option.some.injEq, Prod.mk.injEq] at h
      right
      rw [← h.2]
      simp only [Thread.work, hpc]
      omega
    | atStore =>
      simp only [hpc, Option.some.injEq, Prod.mk.injEq] at h
      right
      rw [← h.2]
      simp only [Thread.work, hpc]
      omega
    | atUnlock =>
      simp only [hpc] at h
      cases hu : unlockQ w with
      | none => simp [hu] at h
      | some w1 =>
        simp only [hu, Option.map_some', Option.some.injEq, Prod.mk.injEq] at h
        right
        rw [← h.2]
        simp only [Thread.work, hpc]
        omega

theorem work_split {α : Type} (w : World α) (l1 l2 : List (Thread α)) (t : Thread α) :
    Conc.work { world := w, threads := l1 ++ t :: l2 }
      = (l1.map fun t => t.work).sum + t.work + (l2.map fun t => t.work).sum := by
  simp only [Conc.work, List.map_append, List.map_cons, List.sum_append, List.sum_cons]
  omega

/-- A step of the scheduler either changes nothing or lowers the work left by one. -/
theorem step_work {α : Type} (grow : Nat → Nat → Nat) (c c' : Conc α) (i : Nat)
    (h : step grow c i = some c') : c' = c ∨ c'.work + 1 = c.work := by
  obtain ⟨w, threads⟩ := c
  unfold step at h
  cases ht : threads[i]? with
  | none =>
    simp only [ht, Option.some.injEq] at h
    exact Or.inl h.symm
  | some t =>
    simp only [ht] at h
    obtain ⟨l1, l2, hsplit, hset⟩ := list_split_at threads i t ht
    cases hs : stepThread grow w t with
    | none => simp [hs] at h
    | some r =>
      obtain ⟨w', t'⟩ := r
      simp only [hs, Option.map_some', Option.some.injEq] at h
      subst h
      rw [hset t']
      rcases stepThread_work grow w w' t t' hs with ⟨rfl, rfl⟩ | hw
      · left; rw [hsplit]
      · right
        rw [hsplit, work_split, work_split]
        omega

theorem Inv.threads_length {α : Type} {progs : List (List (Option α))} {c : Conc α}
    (hinv : Inv progs c) : c.threads.length = progs.length := by
  rw [← hinv.items_eq, List.length_map]

/-- While some thread is not done, some thread can make a step: the holder of the mutex
if it is held, any thread that is not done otherwise. -/
theorem step_enabled {α : Type} (grow : Nat → Nat → Nat) (progs : List (List (Option α)))
    (c : Conc α) (hinv : Inv progs c) (hnd : allDone c = false) :
    ∃ i, i < progs.length ∧ ∃ c', step grow c i = some c' ∧ c'.work + 1 = c.work := by
  have key : ∃ t ∈ c.threads, t.next < t.items.length ∧
      (c.world.q.mu.locked = true → t.inCS = true) := by
    cases hl : c.world.q.mu.locked with
    | true =>
      have hm := hinv.mutex
      rw [hl] at hm
      simp only [↓reduceIte] at hm
      have hpos : 0 < List.countP (fun t : Thread α => t.inCS) c.threads := by omega
      obtain ⟨t, ht, hcs⟩ := List.countP_pos_iff.mp hpos
      exact ⟨t, ht, hinv.cur t ht hcs, fun _ => hcs⟩
    | false =>
      have : ¬ (c.threads.all fun t => decide (t.items.length ≤ t.next)) = true := by
        unfold allDone at hnd
        rw [hnd]; simp
      rw [List.all_eq_true] at this
      push_neg at this
      obtain ⟨t, ht, hlt⟩ := this
      exact ⟨t, ht, by simpa using hlt, fun h => by simp at h⟩
  obtain ⟨t, ht, hnext, hcs⟩ := key
  obtain ⟨i, hi, hti⟩ := List.getElem_of_mem ht
  have hget : c.threads[i]? = some t := by rw [List.getElem?_eq_getElem hi, hti]
  have hmove : ∃ w' t', stepThread grow c.world t = some (w', t') ∧ t'.work + 1 = t.work := by
    obtain ⟨item, hitem⟩ : ∃ item, t.items[t.next]? = some item :=
      ⟨t.items[t.next], List.getElem?_eq_getElem hnext⟩
    cases hpc : t.pc with
    | atLock =>
      have hfree : c.world.q.mu.locked = false := by
        cases hl : c.world.q.mu.locked with
        | false => rfl
        | true =>
          have := hcs hl
          simp [Thread.inCS, hpc] at this
      refine ⟨{ c.world with q := { c.world.q with mu := ⟨true⟩ } }, { t with pc := .atLoad },
        by simp [stepThread, hitem, hpc, lockQ, Mutex.Lock, hfree], ?_⟩
      simp only [Thread.work, hpc]
      omega
    | atLoad =>
      refine ⟨c.world, { t with loaded := c.world.q.items, pc := .atStore },
        by simp [stepThread, hitem, hpc], ?_⟩
      simp only [Thread.work, hpc]
      omega
    | atStore =>
      refine ⟨{ heap := (goAppend grow c.world.heap t.loaded [item]).1,
                q := { c.world.q with items := (goAppend grow c.world.heap t.loaded [item]).2 } },
        { t with pc := .atUnlock }, by simp only [stepThread, hitem, hpc], ?_⟩
      simp only [Thread.work, hpc]
      omega
    | atUnlock =>
      have hin : t.inCS = true := by simp [Thread.inCS, hpc]
      have hlocked : c.world.q.mu.locked = true := by
        cases hl : c.world.q.mu.locked with
        | true => rfl
        | false =>
          have hm := hinv.mutex
          rw [hl] at hm
          simp only [Bool.false_eq_true, ↓reduceIte] at hm
          have := List.countP_eq_zero.mp hm t ht
          simp [hin] at this
      refine ⟨{ c.world with q := { c.world.q with mu := ⟨false⟩ } },
        { t with pc := .atLock, next := t.next + 1 },
        by simp [stepThread, hitem, hpc, unlockQ, Mutex.Unlock, hlocked], ?_⟩
      simp only [Thread.work, hpc]
      omega
  obtain ⟨w', t', hstep, hw⟩ := hmove
  obtain ⟨l1, l2, hsplit, hset⟩ := list_split_at c.threads i t hget
  refine ⟨i, by rw [← hinv.threads_length]; exact hi,
    { world := w', threads := c.threads.set i t' }, by simp [step, hget, hstep], ?_⟩
  obtain ⟨w, threads⟩ := c
  simp only at hsplit hset ⊢
  rw [hset t', hsplit, work_split, work_split]
  omega

/-- Any schedule runs without a fatal error, keeps the invariant and never raises the
work left. -/
theorem runSched_work {α : Type} (grow : Nat → Nat → Nat) (progs : List (List (Option α)))
    (sched : List Nat) :
    ∀ c : Conc α, Inv progs c →
      ∃ c', runSched grow sched c = some c' ∧ Inv progs c' ∧ c'.work ≤ c.work := by
  induction sched with
  | nil => intro c hinv; exact ⟨c, rfl, hinv, Nat.le_refl _⟩
  | cons i sched ih =>
    intro c hinv
    obtain ⟨c1, h1, hinv1⟩ := step_inv grow progs c i hinv
    obtain ⟨c2, h2, hinv2, hw2⟩ := ih c1 hinv1
    refine ⟨c2, by simp [runSched, h1, h2], hinv2, ?_⟩
    rcases step_work grow c c1 i h1 with rfl | hw
    · exact hw2
    · omega

/-- A round in which thread `i` is scheduled lowers the work left when `i` can move. -/
theorem round_progress {α : Type} (grow : Nat → Nat → Nat) (progs : List (List (Option α)))
    (i : Nat) (r : List Nat) :
    ∀ c : Conc α, Inv progs c → i ∈ r →
      (∃ c1, step grow c i = some c1 ∧ c1.work + 1 = c.work) →
      ∃ c', runSched grow r c = some c' ∧ Inv progs c' ∧ c'.work < c.work := by
  induction r with
  | nil => intro c _ hi; simp at hi
  | cons j r ih =>
    intro c hinv hi hmove
    obtain ⟨c1, h1, hinv1⟩ := step_inv grow progs c j hinv
    rcases step_work grow c c1 j h1 with rfl | hw
    · have hi' : i ∈ r := by
        rcases List.mem_cons.mp hi with rfl | hi'
        · obtain ⟨c2, h2, hw2⟩ := hmove
          rw [h1] at h2
          simp only [Option.some.injEq] at h2
          subst h2
          omega
        · exact hi'
      obtain ⟨c', h', hinv', hw'⟩ := ih c1 hinv1 hi' hmove
      exact ⟨c', by simp [runSched, h1, h'], hinv', hw'⟩
    · obtain ⟨c', h', hinv', hw'⟩ := runSched_work grow progs r c1 hinv1
      exact ⟨c', by simp [runSched, h1, h'], hinv', by omega⟩

theorem Thread.work_eq_zero {α : Type} (t : Thread α) (h : t.work = 0) :
    t.items.length ≤ t.next := by
  unfold Thread.work at h
  cases hpc : t.pc <;> simp only [hpc] at h <;> omega

theorem allDone_of_work_zero {α : Type} (c : Conc α) (h : c.work = 0) : allDone c = true := by
  unfold allDone
  rw [List.all_eq_true]
  intro t ht
  have h0 : t.work = 0 := by
    unfold Conc.work at h
    exact List.sum_eq_zero_iff.mp h t.work (List.mem_map.mpr ⟨t, ht, rfl⟩)
  simpa using t.work_eq_zero h0

/-- Rounds in each of which every thread is scheduled at least once finish all calls,
once there are as many rounds as steps left. -/
theorem fair_rounds_finish {α : Type} (grow : Nat → Nat → Nat) (progs : List (List (Option α)))
    (rounds : List (List Nat)) :
    ∀ c : Conc α, Inv progs c → (∀ r ∈ rounds, ∀ i, i < progs.length → i ∈ r) →
      c.work ≤ rounds.length →
      ∃ c', runSched grow rounds.flatten c = some c' ∧ Inv progs c' ∧ allDone c' = true := by
  induction rounds with
  | nil =>
    intro c hinv _ hw
    exact ⟨c, rfl, hinv, allDone_of_work_zero c (by simpa using hw)⟩
  | cons r rounds ih =>
    intro c hinv hfair hw
    have hstep : ∃ c1, runSched grow r c = some c1 ∧ Inv progs c1 ∧ c1.work ≤ rounds.length := by
      cases hd : allDone c with
      | true =>
        obtain ⟨c1, h1, hinv1, hw1⟩ := runSched_work grow progs r c hinv
        by_cases hz : c.work = 0
        · exact ⟨c1, h1, hinv1, by omega⟩
        · exfalso
          apply hz
          unfold Conc.work
          apply List.sum_eq_zero_iff.mpr
          intro x hx
          obtain ⟨t, ht, rfl⟩ := List.mem_map.mp hx
          have hle : t.items.length ≤ t.next := by
            have := List.all_eq_true.mp hd t ht
            simpa using this
          unfold Thread.work
          have : t.items.length - t.next = 0 := by omega
          rw [this]
          simp
      | false =>
        obtain ⟨i, hi, c1, hs, hw1⟩ := step_enabled grow progs c hinv hd
        obtain ⟨c', h', hinv', hw'⟩ := round_progress grow progs i r c hinv
          (hfair r (List.mem_cons_self _ _) i hi) ⟨c1, hs, hw1⟩
        simp only [List.length_cons] at hw
        exact ⟨c', h', hinv', by omega⟩
    obtain ⟨c1, h1, hinv1, hw1⟩ := hstep
    obtain ⟨c', h', hinv', hd'⟩ := ih c1 hinv1
      (fun r' hr' => hfair r' (List.mem_cons_of_mem _ hr')) hw1
    refine ⟨c', ?_, hinv', hd'⟩
    rw [List.flatten_cons, runSched_append, h1]
    exact h'

theorem initConc_work {α : Type} (h : Heap α) (progs : List (List (Option α))) :
    (initConc h progs).work = 4 * (progs.map List.length).sum := by
  have key : ∀ ps : List (List (Option α)),
      (List.map (fun t : Thread α => t.work)
        (ps.map fun p => { items := p, next := 0, pc := .atLock, loaded := nilSlice })).sum
        = 4 * (ps.map List.length).sum := by
    intro ps
    induction ps with
    | nil => rfl
    | cons p ps ih =>
      have hp : ({ items := p, next := 0, pc := .atLock, loaded := nilSlice } : Thread α).work
          = 4 * p.length := by simp [Thread.work]
      simp only [List.map_cons, List.sum_cons, ih, hp]
      omega
  exact key progs

theorem drained_of_allDone {α : Type} (progs : List (List (Option α))) (c : Conc α)
    (hinv : Inv progs c) (hdone : allDone c = true) : Drained progs c := by
  obtain ⟨hok, hperm, hsub⟩ := allDone_inv progs c hinv hdone
  refine ⟨contents c.world, ?_, hperm, ?_, ?_, hsub⟩
  · intro fuel hf
    exact drain_spec (contents c.world) c.world fuel hok rfl hf
  · intro hnd
    exact hperm.nodup_iff.mpr hnd
  · intro K hK
    rw [hperm.length_eq, List.length_flatten]
    exact sum_const_length progs K hK

/-- C9: T threads (one per list of `progs`) call `Enqueue` concurrently.  Whatever the
scheduler has done so far (`sched`), the run has hit no fatal error, and it goes on to
completion under every fair continuation: rounds that schedule each thread at least
once, four rounds per item or more (round robin is one), end with every thread done.
Whenever every thread is done, draining the queue with `Dequeue` until the empty-queue
error yields a permutation of all the enqueued items (none lost, none duplicated;
pairwise distinct when the items are), T*K of them when each thread enqueues K, with
the items of each thread in the order in which that thread enqueued them. -/
theorem concurrent_enqueue_drain {α : Type} (grow : Nat → Nat → Nat) (h : Heap α)
    (progs : List (List (Option α))) (sched : List Nat) :
    ∃ c, runSched grow sched (initConc h progs) = some c ∧
      (allDone c = true → Drained progs c) ∧
      (∀ rounds : List (List Nat), (∀ r ∈ rounds, ∀ i, i < progs.length → i ∈ r) →
        4 * (progs.map List.length).sum ≤ rounds.length →
        ∃ c', runSched grow (sched ++ rounds.flatten) (initConc h progs) = some c' ∧
          allDone c' = true ∧ Drained progs c') ∧
      (∃ c', runSched grow
          (sched ++ (List.replicate (4 * (progs.map List.length).sum)
            (List.range progs.length)).flatten) (initConc h progs) = some c' ∧
        allDone c' = true ∧ Drained progs c') := by
  obtain ⟨c, hrun, hinv, hw⟩ :=
    runSched_work grow progs sched (initConc h progs) (initConc_inv h progs)
  rw [initConc_work] at hw
  have hfair : ∀ rounds : List (List Nat), (∀ r ∈ rounds, ∀ i, i < progs.length → i ∈ r) →
      4 * (progs.map List.length).sum ≤ rounds.length →
      ∃ c', runSched grow (sched ++ rounds.flatten) (initConc h progs) = some c' ∧
        allDone c' = true ∧ Drained progs c' := by
    intro rounds hf hlen
    obtain ⟨c', h', hinv', hd'⟩ := fair_rounds_finish grow progs rounds c hinv hf (by omega)
    refine ⟨c', ?_, hd', drained_of_allDone progs c' hinv' hd'⟩
    rw [runSched_append, hrun]
    exact h'
  refine ⟨c, hrun, fun hd => drained_of_allDone progs c hinv hd, hfair, ?_⟩
  apply hfair
  · intro r hr i hi
    rw [List.eq_of_mem_replicate hr]
    exact List.mem_range.mpr hi
  · simp

theorem concurrent_enqueue_drain_witness :
    finishes sampleGrow ([] : Heap Nat) sampleProgs sampleSched = true ∧
    ((runSched sampleGrow sampleSched (initConc ([] : Heap Nat) sampleProgs)).bind
      fun c => (drain 5 c.world).map Prod.fst)
        = some [some 1, some 3, some 2, some 4] ∧
    ∃ c, runSched sampleGrow sampleSched (initConc ([] : Heap Nat) sampleProgs) = some c ∧
      (allDone c = true → Drained sampleProgs c) ∧
      (∀ rounds : List (List Nat), (∀ r ∈ rounds, ∀ i, i < sampleProgs.length → i ∈ r) →
        4 * (sampleProgs.map List.length).sum ≤ rounds.length →
        ∃ c', runSched sampleGrow (sampleSched ++ rounds.flatten)
            (initConc ([] : Heap Nat) sampleProgs) = some c' ∧
          allDone c' = true ∧ Drained sampleProgs c') ∧
      (∃ c', runSched sampleGrow
          (sampleSched ++ (List.replicate (4 * (sampleProgs.map List.length).sum)
            (List.range sampleProgs.length)).flatten)
          (initConc ([] : Heap Nat) sampleProgs) = some c' ∧
        allDone c' = true ∧ Drained sampleProgs c') :=
  ⟨by decide, by decide, concurrent_enqueue_drain sampleGrow [] sampleProgs sampleSched⟩

/-! ## Base64: encoding then decoding -/

theorem shl_or (a b k : Nat) (hb : b < 2 ^ k) : a <<< k ||| b = a * 2 ^ k + b := by
  rw [Nat.shiftLeft_eq, Nat.mul_comm, ← Nat.mul_add_lt_is_or hb]

theorem and_63 (x : Nat) : x &&& 0x3F = x % 64 := Nat.and_pow_two_sub_one_eq_mod x 6

theorem pack3_eq (b0 b1 b2 : Nat) (h1 : b1 < 256) (h2 : b2 < 256) :
    b0 <<< 16 ||| b1 <<< 8 ||| b2 = b0 * 65536 + b1 * 256 + b2 := by
  rw [Nat.or_assoc, shl_or b1 b2 8 (by norm_num; exact h2), shl_or b0 _ 16 (by norm_num; omega)]
  norm_num
  omega

theorem pack4_eq (s0 s1 s2 s3 : Nat) (h1 : s1 < 64) (h2 : s2 < 64) (h3 : s3 < 64) :
    s0 <<< 18 ||| s1 <<< 12 ||| s2 <<< 6 ||| s3 = s0 * 262144 + s1 * 4096 + s2 * 64 + s3 := by
  rw [Nat.or_assoc, Nat.or_assoc, shl_or s2 s3 6 (by norm_num; exact h3),
    shl_or s1 _ 12 (by norm_num; omega), shl_or s0 _ 18 (by norm_num; omega)]
  norm_num
  omega

theorem decodeMap_sym_fin : ∀ i : Fin 64, StdEncoding.decodeMap (StdEncoding.sym i.val) = i.val := by
  decide

theorem decodeMap_sym (i : Nat) (hi : i < 64) : StdEncoding.decodeMap (StdEncoding.sym i) = i :=
  decodeMap_sym_fin ⟨i, hi⟩

theorem decodeMap_pad : StdEncoding.decodeMap 61 = 0xff := by decide

theorem scan_four (enc : Encoding) (dbuf : List Nat) (rest : List Byte) (si : Nat) :
    scan enc 4 dbuf rest si = .conv rest si dbuf 4 none := by
  cases rest <;> simp [scan]

theorem scan_sym (j : Nat) (hj : j < 4) (dbuf : List Nat) (s : Nat) (hs : s < 64)
    (rest : List Byte) (si : Nat) :
    scan StdEncoding j dbuf (StdEncoding.sym s :: rest) si
      = scan StdEncoding (j + 1) (dbuf ++ [s]) rest (si + 1) := by
  have h1 := decodeMap_sym s hs
  have h2 : ¬ (4 ≤ j) := by omega
  have h3 : s ≠ 255 := by omega
  simp only [scan, h1, if_neg h2, ne_eq, h3, not_false_eq_true, if_true]

theorem scan_pad2 (dbuf : List Nat) (si : Nat) :
    scan StdEncoding 2 dbuf [61, 61] si = .conv [] (si + 2) dbuf 2 none := by
  rfl

theorem scan_pad3 (dbuf : List Nat) (si : Nat) :
    scan StdEncoding 3 dbuf [61] si = .conv [] (si + 1) dbuf 3 none := by
  rfl

theorem setByte_window (P R : List Byte) (i : Nat) (b : Byte) (hi : i < R.length) :
    setByte (P ++ R) (P.length + i) b = some (P ++ R.set i b) := by
  have hlt : P.length + i < (P ++ R).length := by
    simp only [List.length_append]; omega
  rw [setByte, if_pos hlt, List.set_append_right _ _ (by omega), Nat.add_sub_cancel_left]

theorem putBytes_window (P R bs : List Byte) (h : bs.length ≤ R.length) :
    putBytes (P ++ R) P.length bs = some (P ++ (bs ++ R.drop bs.length)) := by
  have hle : P.length + bs.length ≤ (P ++ R).length := by
    simp only [List.length_append]; omega
  rw [putBytes, if_pos hle, List.take_left' rfl, List.drop_append, List.append_assoc]

theorem set_three (R : List Byte) (a b c : Byte) (h : 3 ≤ R.length) :
    ((R.set 2 c).set 1 b).set 0 a = a :: b :: c :: R.drop 3 := by
  match R, h with
  | _ :: _ :: _ :: _, _ => simp

theorem set_two (R : List Byte) (a b : Byte) (h : 2 ≤ R.length) :
    (R.set 1 b).set 0 a = a :: b :: R.drop 2 := by
  match R, h with
  | _ :: _ :: _, _ => simp

theorem set_one (R : List Byte) (a : Byte) (h : 1 ≤ R.length) :
    R.set 0 a = a :: R.drop 1 := by
  match R, h with
  | _ :: _, _ => simp

theorem decodeQuantum_full (s0 s1 s2 s3 : Nat) (h0 : s0 < 64) (h1 : s1 < 64) (h2 : s2 < 64)
    (h3 : s3 < 64) (rest : List Byte) (si : Nat) (P R : List Byte) (hR : 3 ≤ R.length) :
    StdEncoding.decodeQuantum (P ++ R) P.length
        (StdEncoding.sym s0 :: StdEncoding.sym s1 :: StdEncoding.sym s2 :: StdEncoding.sym s3 :: rest)
        si
      = some ⟨rest, si + 4,
          P ++ (toByte ((s0 * 262144 + s1 * 4096 + s2 * 64 + s3) / 65536) ::
           toByte ((s0 * 262144 + s1 * 4096 + s2 * 64 + s3) / 256) ::
           toByte (s0 * 262144 + s1 * 4096 + s2 * 64 + s3) :: R.drop 3), 3, none⟩ := by
  have hlen : ¬ ((P ++ R).length < P.length) := by
    simp only [List.length_append]; omega
  unfold Encoding.decodeQuantum
  rw [if_neg hlen, scan_sym 0 (by omega) _ s0 h0, scan_sym 1 (by omega) _ s1 h1,
    scan_sym 2 (by omega) _ s2 h2, scan_sym 3 (by omega) _ s3 h3, scan_four]
  simp only [List.nil_append, List.cons_append, List.getD_cons_zero, List.getD_cons_succ,
    pack4_eq s0 s1 s2 s3 h1 h2 h3, Nat.shiftRight_eq_div_pow]
  rw [setByte_window P R 2 _ (by omega)]
  simp only [Option.bind_eq_bind, Option.some_bind]
  rw [setByte_window P _ 1 _ (by simp only [List.length_set]; omega)]
  simp only [Option.some_bind]
  rw [setByte_window P _ 0 _ (by simp only [List.length_set]; omega)]
  simp only [Option.some_bind, set_three R _ _ _ hR]
  norm_num

theorem decodeQuantum_pad1 (s0 s1 s2 : Nat) (h0 : s0 < 64) (h1 : s1 < 64) (h2 : s2 < 64)
    (si : Nat) (P R : List Byte) (hR : 2 ≤ R.length) :
    StdEncoding.decodeQuantum (P ++ R) P.length
        [StdEncoding.sym s0, StdEncoding.sym s1, StdEncoding.sym s2, 61] si
      = some ⟨[], si + 4,
          P ++ (toByte ((s0 * 262144 + s1 * 4096 + s2 * 64 + 0) / 65536) ::
           toByte ((s0 * 262144 + s1 * 4096 + s2 * 64 + 0) / 256) :: R.drop 2), 2, none⟩ := by
  have hlen : ¬ ((P ++ R).length < P.length) := by
    simp only [List.length_append]; omega
  unfold Encoding.decodeQuantum
  rw [if_neg hlen, scan_sym 0 (by omega) _ s0 h0, scan_sym 1 (by omega) _ s1 h1,
    scan_sym 2 (by omega) _ s2 h2, scan_pad3]
  have hstrict : StdEncoding.strict = false := rfl
  simp only [List.nil_append, List.cons_append, List.getD_cons_zero, List.getD_cons_succ,
    List.getD_nil, pack4_eq s0 s1 s2 0 h1 h2 (by omega), Nat.shiftRight_eq_div_pow, hstrict]
  rw [setByte_window P R 1 _ (by omega)]
  simp only [Option.bind_eq_bind, Option.some_bind, Bool.false_eq_true, false_and, if_false]
  rw [setByte_window P _ 0 _ (by simp only [List.length_set]; omega)]
  simp only [Option.some_bind, set_two R _ _ hR]
  norm_num

theorem decodeQuantum_pad2 (s0 s1 : Nat) (h0 : s0 < 64) (h1 : s1 < 64) (si : Nat)
    (P R : List Byte) (hR : 1 ≤ R.length) :
    StdEncoding.decodeQuantum (P ++ R) P.length
        [StdEncoding.sym s0, StdEncoding.sym s1, 61, 61] si
      = some ⟨[], si + 4,
          P ++ (toByte ((s0 * 262144 + s1 * 4096 + 0 * 64 + 0) / 65536) :: R.drop 1), 1, none⟩ := by
  have hlen : ¬ ((P ++ R).length < P.length) := by
    simp only [List.length_append]; omega
  unfold Encoding.decodeQuantum
  rw [if_neg hlen, scan_sym 0 (by omega) _ s0 h0, scan_sym 1 (by omega) _ s1 h1, scan_pad2]
  have hstrict : StdEncoding.strict = false := rfl
  simp only [List.nil_append, List.cons_append, List.getD_cons_zero, List.getD_cons_succ,
    List.getD_nil, pack4_eq s0 s1 0 0 h1 (by omega) (by omega), Nat.shiftRight_eq_div_pow, hstrict]
  rw [setByte_window P R 0 _ (by omega)]
  simp only [Option.bind_eq_bind, Option.some_bind, Bool.false_eq_true, false_and, if_false,
    set_one R _ hR]
  norm_num

theorem sextet_lt (v k : Nat) : sextet v k < 64 := Nat.mod_lt _ (by norm_num)

theorem quantumVal_lt (b0 b1 b2 : Byte) : quantumVal b0.val b1.val b2.val < 16777216 := by
  have h0 := b0.isLt
  have h1 := b1.isLt
  have h2 := b2.isLt
  unfold quantumVal
  omega

theorem sextets_sum (v : Nat) (hv : v < 16777216) :
    sextet v 18 * 262144 + sextet v 12 * 4096 + sextet v 6 * 64 + sextet v 0 = v := by
  unfold sextet
  norm_num
  omega

theorem toByte_eq (x : Nat) (b : Byte) (h : x % 256 = b.val) : toByte x = b := by
  apply Fin.ext
  simpa [toByte, Fin.ofNat] using h

theorem symbols_three (b0 b1 b2 : Byte) (rest : List Byte) :
    StdEncoding.symbols (b0 :: b1 :: b2 :: rest)
      = StdEncoding.sym (sextet (quantumVal b0.val b1.val b2.val) 18) ::
        StdEncoding.sym (sextet (quantumVal b0.val b1.val b2.val) 12) ::
        StdEncoding.sym (sextet (quantumVal b0.val b1.val b2.val) 6) ::
        StdEncoding.sym (sextet (quantumVal b0.val b1.val b2.val) 0) :: StdEncoding.symbols rest := by
  simp only [Encoding.symbols, pack3_eq b0.val b1.val b2.val b1.isLt b2.isLt, and_63,
    Nat.shiftRight_eq_div_pow, sextet, quantumVal, List.cons_append, List.nil_append]
  norm_num

theorem symbols_two (b0 b1 : Byte) :
    StdEncoding.symbols [b0, b1]
      = [StdEncoding.sym (sextet (quantumVal b0.val b1.val 0) 18),
         StdEncoding.sym (sextet (quantumVal b0.val b1.val 0) 12),
         StdEncoding.sym (sextet (quantumVal b0.val b1.val 0) 6), 61] := by
  have hp : StdEncoding.padChar = 61 := rfl
  have h := pack3_eq b0.val b1.val 0 b1.isLt (by norm_num)
  simp only [Nat.or_zero] at h
  simp only [Encoding.symbols, h, and_63, Nat.shiftRight_eq_div_pow, sextet, quantumVal, hp,
    List.cons_append, List.nil_append]
  norm_num [NoPadding]
  rfl

theorem symbols_one (b0 : Byte) :
    StdEncoding.symbols [b0]
      = [StdEncoding.sym (sextet (quantumVal b0.val 0 0) 18),
         StdEncoding.sym (sextet (quantumVal b0.val 0 0) 12), 61, 61] := by
  have hp : StdEncoding.padChar = 61 := rfl
  simp only [Encoding.symbols, Nat.shiftLeft_eq, and_63, Nat.shiftRight_eq_div_pow, sextet,
    quantumVal, hp, List.cons_append, List.nil_append]
  norm_num [NoPadding]
  rfl

set_option maxRecDepth 8000 in
theorem or_255_fin : ∀ x : Fin 256, x.val ||| 255 = 255 := by decide

theorem or_255 (x : Nat) (hx : x < 256) : x ||| 255 = 255 := or_255_fin ⟨x, hx⟩

theorem or_lt_64 (x y : Nat) (hx : x < 64) (hy : y < 64) : x ||| y < 64 :=
  @Nat.or_lt_two_pow x y 6 hx hy

theorem or_lt_256 (x y : Nat) (hx : x < 256) (hy : y < 256) : x ||| y < 256 :=
  @Nat.or_lt_two_pow x y 8 hx hy

theorem shl_mod (n k w : Nat) (h : n * 2 ^ k < 2 ^ w) : n <<< k % 2 ^ w = n * 2 ^ k := by
  rw [Nat.shiftLeft_eq]
  exact Nat.mod_eq_of_lt h

theorem assemble32_ok (s0 s1 s2 s3 : Nat) (h0 : s0 < 64) (h1 : s1 < 64) (h2 : s2 < 64)
    (h3 : s3 < 64) :
    assemble32 s0 s1 s2 s3 = some ((s0 * 262144 + s1 * 4096 + s2 * 64 + s3) * 256) := by
  have hor : s0 ||| s1 ||| s2 ||| s3 < 64 :=
    or_lt_64 _ _ (or_lt_64 _ _ (or_lt_64 _ _ h0 h1) h2) h3
  have hne : ¬ (s0 ||| s1 ||| s2 ||| s3 = 0xff) := by omega
  unfold assemble32
  rw [if_neg hne, shl_mod s0 26 32 (by norm_num; omega), shl_mod s1 20 32 (by norm_num; omega),
    shl_mod s2 14 32 (by norm_num; omega), shl_mod s3 8 32 (by norm_num; omega)]
  rw [Nat.or_assoc, Nat.or_assoc, ← Nat.shiftLeft_eq s2, ← Nat.shiftLeft_eq s1,
    ← Nat.shiftLeft_eq s0, shl_or s2 _ 14 (by norm_num; omega),
    shl_or s1 _ 20 (by norm_num; omega), shl_or s0 _ 26 (by norm_num; omega)]
  norm_num
  omega

theorem assemble32_pad (n0 n1 n2 : Nat) (h0 : n0 < 256) (h1 : n1 < 256) (h2 : n2 < 256) :
    assemble32 n0 n1 n2 255 = none := by
  have h := or_255 (n0 ||| n1 ||| n2) (or_lt_256 _ _ (or_lt_256 _ _ h0 h1) h2)
  simp [assemble32, h]

theorem assemble64_ok (s0 s1 s2 s3 t0 t1 t2 t3 : Nat) (h0 : s0 < 64) (h1 : s1 < 64)
    (h2 : s2 < 64) (h3 : s3 < 64) (k0 : t0 < 64) (k1 : t1 < 64) (k2 : t2 < 64) (k3 : t3 < 64) :
    assemble64 s0 s1 s2 s3 t0 t1 t2 t3
      = some ((s0 * 262144 + s1 * 4096 + s2 * 64 + s3) * 1099511627776
          + (t0 * 262144 + t1 * 4096 + t2 * 64 + t3) * 65536) := by
  have hor : s0 ||| s1 ||| s2 ||| s3 ||| t0 ||| t1 ||| t2 ||| t3 < 64 :=
    or_lt_64 _ _ (or_lt_64 _ _ (or_lt_64 _ _ (or_lt_64 _ _ (or_lt_64 _ _ (or_lt_64 _ _
      (or_lt_64 _ _ h0 h1) h2) h3) k0) k1) k2) k3
  have hne : ¬ (s0 ||| s1 ||| s2 ||| s3 ||| t0 ||| t1 ||| t2 ||| t3 = 0xff) := by omega
  unfold assemble64
  rw [if_neg hne, shl_mod s0 58 64 (by norm_num; omega), shl_mod s1 52 64 (by norm_num; omega),
    shl_mod s2 46 64 (by norm_num; omega), shl_mod s3 40 64 (by norm_num; omega),
    shl_mod t0 34 64 (by norm_num; omega), shl_mod t1 28 64 (by norm_num; omega),
    shl_mod t2 22 64 (by norm_num; omega), shl_mod t3 16 64 (by norm_num; omega)]
  rw [Nat.or_assoc, Nat.or_assoc, Nat.or_assoc, Nat.or_assoc, Nat.or_assoc, Nat.or_assoc,
    ← Nat.shiftLeft_eq t2, ← Nat.shiftLeft_eq t1, ← Nat.shiftLeft_eq t0, ← Nat.shiftLeft_eq s3,
    ← Nat.shiftLeft_eq s2, ← Nat.shiftLeft_eq s1, ← Nat.shiftLeft_eq s0,
    shl_or t2 _ 22 (by norm_num; omega), shl_or t1 _ 28 (by norm_num; omega),
    shl_or t0 _ 34 (by norm_num; omega), shl_or s3 _ 40 (by norm_num; omega),
    shl_or s2 _ 46 (by norm_num; omega), shl_or s1 _ 52 (by norm_num; omega),
    shl_or s0 _ 58 (by norm_num; omega)]
  norm_num
  omega

theorem assemble64_pad (n0 n1 n2 n3 n4 n5 n6 : Nat) (h0 : n0 < 256) (h1 : n1 < 256)
    (h2 : n2 < 256) (h3 : n3 < 256) (h4 : n4 < 256) (h5 : n5 < 256) (h6 : n6 < 256) :
    assemble64 n0 n1 n2 n3 n4 n5 n6 255 = none := by
  have h := or_255 (n0 ||| n1 ||| n2 ||| n3 ||| n4 ||| n5 ||| n6)
    (or_lt_256 _ _ (or_lt_256 _ _ (or_lt_256 _ _ (or_lt_256 _ _ (or_lt_256 _ _
      (or_lt_256 _ _ h0 h1) h2) h3) h4) h5) h6)
  simp [assemble64, h]

theorem bytes_full (b0 b1 b2 : Byte) :
    toByte ((sextet (quantumVal b0.val b1.val b2.val) 18 * 262144
        + sextet (quantumVal b0.val b1.val b2.val) 12 * 4096
        + sextet (quantumVal b0.val b1.val b2.val) 6 * 64
        + sextet (quantumVal b0.val b1.val b2.val) 0) / 65536) = b0 ∧
    toByte ((sextet (quantumVal b0.val b1.val b2.val) 18 * 262144
        + sextet (quantumVal b0.val b1.val b2.val) 12 * 4096
        + sextet (quantumVal b0.val b1.val b2.val) 6 * 64
        + sextet (quantumVal b0.val b1.val b2.val) 0) / 256) = b1 ∧
    toByte (sextet (quantumVal b0.val b1.val b2.val) 18 * 262144
        + sextet (quantumVal b0.val b1.val b2.val) 12 * 4096
        + sextet (quantumVal b0.val b1.val b2.val) 6 * 64
        + sextet (quantumVal b0.val b1.val b2.val) 0) = b2 := by
  rw [sextets_sum _ (quantumVal_lt b0 b1 b2)]
  have h0 := b0.isLt
  have h1 := b1.isLt
  have h2 := b2.isLt
  refine ⟨toByte_eq _ _ ?_, toByte_eq _ _ ?_, toByte_eq _ _ ?_⟩ <;> unfold quantumVal <;> omega

theorem bytes_pad1 (b0 b1 : Byte) :
    toByte ((sextet (quantumVal b0.val b1.val 0) 18 * 262144
        + sextet (quantumVal b0.val b1.val 0) 12 * 4096
        + sextet (quantumVal b0.val b1.val 0) 6 * 64 + 0) / 65536) = b0 ∧
    toByte ((sextet (quantumVal b0.val b1.val 0) 18 * 262144
        + sextet (quantumVal b0.val b1.val 0) 12 * 4096
        + sextet (quantumVal b0.val b1.val 0) 6 * 64 + 0) / 256) = b1 := by
  have h0 := b0.isLt
  have h1 := b1.isLt
  refine ⟨toByte_eq _ _ ?_, toByte_eq _ _ ?_⟩ <;> unfold quantumVal sextet <;> norm_num <;> omega

theorem bytes_pad2 (b0 : Byte) :
    toByte ((sextet (quantumVal b0.val 0 0) 18 * 262144
        + sextet (quantumVal b0.val 0 0) 12 * 4096 + 0 * 64 + 0) / 65536) = b0 := by
  have h0 := b0.isLt
  refine toByte_eq _ _ ?_
  unfold quantumVal sextet
  norm_num
  omega

theorem bytes32 (b0 b1 b2 : Byte) :
    toByte (((sextet (quantumVal b0.val b1.val b2.val) 18 * 262144
        + sextet (quantumVal b0.val b1.val b2.val) 12 * 4096
        + sextet (quantumVal b0.val b1.val b2.val) 6 * 64
        + sextet (quantumVal b0.val b1.val b2.val) 0) * 256) >>> 24) = b0 ∧
    toByte (((sextet (quantumVal b0.val b1.val b2.val) 18 * 262144
        + sextet (quantumVal b0.val b1.val b2.val) 12 * 4096
        + sextet (quantumVal b0.val b1.val b2.val) 6 * 64
        + sextet (quantumVal b0.val b1.val b2.val) 0) * 256) >>> 16) = b1 ∧
    toByte (((sextet (quantumVal b0.val b1.val b2.val) 18 * 262144
        + sextet (quantumVal b0.val b1.val b2.val) 12 * 4096
        + sextet (quantumVal b0.val b1.val b2.val) 6 * 64
        + sextet (quantumVal b0.val b1.val b2.val) 0) * 256) >>> 8) = b2 := by
  rw [sextets_sum _ (quantumVal_lt b0 b1 b2)]
  have h0 := b0.isLt
  have h1 := b1.isLt
  have h2 := b2.isLt
  simp only [Nat.shiftRight_eq_div_pow]
  refine ⟨toByte_eq _ _ ?_, toByte_eq _ _ ?_, toByte_eq _ _ ?_⟩ <;> unfold quantumVal <;>
    norm_num <;> omega

theorem bytes64 (b0 b1 b2 b3 b4 b5 : Byte) (dn : Nat)
    (hdn : dn = (sextet (quantumVal b0.val b1.val b2.val) 18 * 262144
        + sextet (quantumVal b0.val b1.val b2.val) 12 * 4096
        + sextet (quantumVal b0.val b1.val b2.val) 6 * 64
        + sextet (quantumVal b0.val b1.val b2.val) 0) * 1099511627776
      + (sextet (quantumVal b3.val b4.val b5.val) 18 * 262144
        + sextet (quantumVal b3.val b4.val b5.val) 12 * 4096
        + sextet (quantumVal b3.val b4.val b5.val) 6 * 64
        + sextet (quantumVal b3.val b4.val b5.val) 0) * 65536) :
    [toByte (dn >>> 56), toByte (dn >>> 48), toByte (dn >>> 40), toByte (dn >>> 32),
      toByte (dn >>> 24), toByte (dn >>> 16)] = [b0, b1, b2, b3, b4, b5] := by
  rw [sextets_sum _ (quantumVal_lt b0 b1 b2), sextets_sum _ (quantumVal_lt b3 b4 b5)] at hdn
  have h0 := b0.isLt
  have h1 := b1.isLt
  have h2 := b2.isLt
  have h3 := b3.isLt
  have h4 := b4.isLt
  have h5 := b5.isLt
  unfold quantumVal at hdn
  simp only [Nat.shiftRight_eq_div_pow]
  rw [toByte_eq (dn / 2 ^ 56) b0 (by norm_num; omega), toByte_eq (dn / 2 ^ 48) b1 (by norm_num; omega),
    toByte_eq (dn / 2 ^ 40) b2 (by norm_num; omega), toByte_eq (dn / 2 ^ 32) b3 (by norm_num; omega),
    toByte_eq (dn / 2 ^ 24) b4 (by norm_num; omega), toByte_eq (dn / 2 ^ 16) b5 (by norm_num; omega)]

theorem symbols_nil : StdEncoding.symbols [] = [] := by simp [Encoding.symbols]

theorem decodeSlow_nil (fuel si : Nat) (dst : List Byte) (n : Nat) :
    decodeSlow StdEncoding (fuel + 1) [] si dst n = some (dst, n, none) := by
  simp [decodeSlow]

theorem decodeSlow_encode : ∀ (bs : List Byte) (fuel si : Nat) (P R : List Byte),
    (StdEncoding.symbols bs).length < fuel → (StdEncoding.symbols bs).length / 4 * 3 ≤ R.length →
      ∃ R', decodeSlow StdEncoding fuel (StdEncoding.symbols bs) si (P ++ R) P.length
          = some ((P ++ bs) ++ R', P.length + bs.length, none) ∧ R'.length + bs.length = R.length
  | [], fuel, si, P, R, h, _ => by
    obtain ⟨n, rfl⟩ : ∃ n, fuel = n + 1 := ⟨fuel - 1, by omega⟩
    exact ⟨R, by simp [symbols_nil, decodeSlow_nil], by simp⟩
  | [b0], fuel, si, P, R, h, hR => by
    obtain ⟨n, rfl⟩ : ∃ n, fuel = n + 1 := ⟨fuel - 1, by omega⟩
    rw [symbols_one] at h hR ⊢
    simp only [List.length_cons, List.length_nil] at h hR
    obtain ⟨m, rfl⟩ : ∃ m, n = m + 1 := ⟨n - 1, by omega⟩
    refine ⟨R.drop 1, ?_, by simp only [List.length_drop, List.length_cons, List.length_nil]; omega⟩
    simp only [decodeSlow, List.length_cons, List.length_nil,
      decodeQuantum_pad2 _ _ (sextet_lt _ _) (sextet_lt _ _) si P R (by omega), bytes_pad2 b0]
    simp
  | [b0, b1], fuel, si, P, R, h, hR => by
    obtain ⟨n, rfl⟩ : ∃ n, fuel = n + 1 := ⟨fuel - 1, by omega⟩
    rw [symbols_two] at h hR ⊢
    simp only [List.length_cons, List.length_nil] at h hR
    obtain ⟨m, rfl⟩ : ∃ m, n = m + 1 := ⟨n - 1, by omega⟩
    refine ⟨R.drop 2, ?_, by simp only [List.length_drop, List.length_cons, List.length_nil]; omega⟩
    simp only [decodeSlow, List.length_cons, List.length_nil,
      decodeQuantum_pad1 _ _ _ (sextet_lt _ _) (sextet_lt _ _) (sextet_lt _ _) si P R (by omega),
      (bytes_pad1 b0 b1).1, (bytes_pad1 b0 b1).2]
    simp
  | b0 :: b1 :: b2 :: rest, fuel, si, P, R, h, hR => by
    obtain ⟨n, rfl⟩ : ∃ n, fuel = n + 1 := ⟨fuel - 1, by omega⟩
    rw [symbols_three] at h hR ⊢
    simp only [List.length_cons] at h hR
    obtain ⟨R', ih, hlen⟩ := decodeSlow_encode rest n (si + 4) (P ++ [b0, b1, b2]) (R.drop 3)
      (by omega) (by simp only [List.length_drop]; omega)
    refine ⟨R', ?_, by simp only [List.length_drop, List.length_cons] at hlen ⊢; omega⟩
    simp only [List.append_assoc, List.cons_append, List.nil_append, List.length_append,
      List.length_cons, List.length_nil] at ih
    simp only [decodeSlow, List.length_cons,
      decodeQuantum_full _ _ _ _ (sextet_lt _ _) (sextet_lt _ _) (sextet_lt _ _) (sextet_lt _ _)
        _ si P R (by omega),
      (bytes_full b0 b1 b2).1, (bytes_full b0 b1 b2).2.1, (bytes_full b0 b1 b2).2.2]
    simp only [Nat.zero_lt_succ, if_true, ne_eq, not_true_eq_false, if_false, ih]
    simp
    omega

theorem room_eq (P R : List Byte) : (P ++ R).length - P.length = R.length := by
  simp only [List.length_append]; omega

theorem decode32_encode : ∀ (bs : List Byte) (fuel si : Nat) (P R : List Byte),
    (StdEncoding.symbols bs).length < fuel → (StdEncoding.symbols bs).length / 4 * 3 ≤ R.length →
      ∃ R', decode32 StdEncoding fuel (StdEncoding.symbols bs) si (P ++ R) P.length
          = some ((P ++ bs) ++ R', P.length + bs.length, none) ∧ R'.length + bs.length = R.length
  | [], fuel, si, P, R, h, hR => by
    obtain ⟨n, rfl⟩ : ∃ n, fuel = n + 1 := ⟨fuel - 1, by omega⟩
    obtain ⟨R', hs, hlen⟩ := decodeSlow_encode [] (n + 1) si P R h hR
    rw [symbols_nil] at hs ⊢
    exact ⟨R', by simp only [decode32, hs], hlen⟩
  | [b0], fuel, si, P, R, h, hR => by
    obtain ⟨n, rfl⟩ : ∃ n, fuel = n + 1 := ⟨fuel - 1, by omega⟩
    obtain ⟨R', hs, hlen⟩ := decodeSlow_encode [b0] (n + 1) si P R h hR
    rw [symbols_one] at h hR hs ⊢
    simp only [List.length_cons, List.length_nil] at h hR
    obtain ⟨m, rfl⟩ : ∃ m, n = m + 1 := ⟨n - 1, by omega⟩
    by_cases hg : 4 ≤ (P ++ R).length - P.length
    · refine ⟨R.drop 1, ?_,
        by simp only [List.length_drop, List.length_cons, List.length_nil]; omega⟩
      simp only [decode32, if_pos hg, decodeMap_sym _ (sextet_lt _ _), decodeMap_pad,
        assemble32_pad _ _ _ (Nat.lt_trans (sextet_lt _ _) (by norm_num))
          (Nat.lt_trans (sextet_lt _ _) (by norm_num)) (by norm_num : (255 : Nat) < 256),
        decodeQuantum_pad2 _ _ (sextet_lt _ _) (sextet_lt _ _) si P R (by omega), bytes_pad2 b0]
      simp [decodeSlow]
    · exact ⟨R', by simp only [decode32, if_neg hg, hs], hlen⟩
  | [b0, b1], fuel, si, P, R, h, hR => by
    obtain ⟨n, rfl⟩ : ∃ n, fuel = n + 1 := ⟨fuel - 1, by omega⟩
    obtain ⟨R', hs, hlen⟩ := decodeSlow_encode [b0, b1] (n + 1) si P R h hR
    rw [symbols_two] at h hR hs ⊢
    simp only [List.length_cons, List.length_nil] at h hR
    obtain ⟨m, rfl⟩ : ∃ m, n = m + 1 := ⟨n - 1, by omega⟩
    by_cases hg : 4 ≤ (P ++ R).length - P.length
    · refine ⟨R.drop 2, ?_,
        by simp only [List.length_drop, List.length_cons, List.length_nil]; omega⟩
      simp only [decode32, if_pos hg, decodeMap_sym _ (sextet_lt _ _), decodeMap_pad,
        assemble32_pad _ _ _ (Nat.lt_trans (sextet_lt _ _) (by norm_num))
          (Nat.lt_trans (sextet_lt _ _) (by norm_num))
          (Nat.lt_trans (sextet_lt _ _) (by norm_num)),
        decodeQuantum_pad1 _ _ _ (sextet_lt _ _) (sextet_lt _ _) (sextet_lt _ _) si P R
          (by omega),
        (bytes_pad1 b0 b1).1, (bytes_pad1 b0 b1).2]
      simp [decodeSlow]
    · exact ⟨R', by simp only [decode32, if_neg hg, hs], hlen⟩
  | b0 :: b1 :: b2 :: rest, fuel, si, P, R, h, hR => by
    obtain ⟨n, rfl⟩ : ∃ n, fuel = n + 1 := ⟨fuel - 1, by omega⟩
    obtain ⟨R', hs, hlen⟩ := decodeSlow_encode (b0 :: b1 :: b2 :: rest) (n + 1) si P R h hR
    rw [symbols_three] at h hR hs ⊢
    simp only [List.length_cons] at h hR
    by_cases hg : 4 ≤ (P ++ R).length - P.length
    · have hR4 : 4 ≤ R.length := by rw [room_eq] at hg; exact hg
      obtain ⟨R2, ih, hlen2⟩ := decode32_encode rest n (si + 4) (P ++ [b0, b1, b2])
        (toByte ((sextet (quantumVal b0.val b1.val b2.val) 18 * 262144
          + sextet (quantumVal b0.val b1.val b2.val) 12 * 4096
          + sextet (quantumVal b0.val b1.val b2.val) 6 * 64
          + sextet (quantumVal b0.val b1.val b2.val) 0) * 256) :: R.drop 4)
        (by omega) (by simp only [List.length_cons, List.length_drop]; omega)
      refine ⟨R2, ?_, by simp only [List.length_drop, List.length_cons] at hlen2 ⊢; omega⟩
      simp only [List.append_assoc, List.cons_append, List.nil_append, List.length_append,
        List.length_cons, List.length_nil] at ih
      have hpb := putBytes_window P R [b0, b1, b2,
        toByte ((sextet (quantumVal b0.val b1.val b2.val) 18 * 262144
          + sextet (quantumVal b0.val b1.val b2.val) 12 * 4096
          + sextet (quantumVal b0.val b1.val b2.val) 6 * 64
          + sextet (quantumVal b0.val b1.val b2.val) 0) * 256)] (by simpa using hR4)
      simp only [decode32, if_pos hg, decodeMap_sym _ (sextet_lt _ _),
        assemble32_ok _ _ _ _ (sextet_lt _ _) (sextet_lt _ _) (sextet_lt _ _) (sextet_lt _ _),
        hpb, (bytes32 b0 b1 b2).1, (bytes32 b0 b1 b2).2.1, (bytes32 b0 b1 b2).2.2,
        List.cons_append, List.nil_append, List.length_cons, List.length_nil, ih]
      simp
      omega
    · exact ⟨R', by simp only [decode32, if_neg hg, hs], hlen⟩

theorem lt_256_of_sextet (v k : Nat) : sextet v k < 256 :=
  Nat.lt_trans (sextet_lt v k) (by norm_num)

theorem decode64_encode (intSize : Nat) :
    ∀ (bs : List Byte) (fuel si : Nat) (P R : List Byte),
      (StdEncoding.symbols bs).length < fuel →
      (StdEncoding.symbols bs).length / 4 * 3 ≤ R.length →
        ∃ R', decode64 StdEncoding intSize fuel (StdEncoding.symbols bs) si (P ++ R) P.length
            = some ((P ++ bs) ++ R', P.length + bs.length, none) ∧
          R'.length + bs.length = R.length
  | [], fuel, si, P, R, h, hR => by
    obtain ⟨n, rfl⟩ : ∃ n, fuel = n + 1 := ⟨fuel - 1, by omega⟩
    obtain ⟨R', hs, hlen⟩ := decode32_encode [] (n + 1) si P R h hR
    rw [symbols_nil] at hs ⊢
    exact ⟨R', by simp only [decode64, hs], hlen⟩
  | [b0], fuel, si, P, R, h, hR => by
    obtain ⟨n, rfl⟩ : ∃ n, fuel = n + 1 := ⟨fuel - 1, by omega⟩
    obtain ⟨R', hs, hlen⟩ := decode32_encode [b0] (n + 1) si P R h hR
    rw [symbols_one] at hs ⊢
    exact ⟨R', by simp only [decode64, hs], hlen⟩
  | [b0, b1], fuel, si, P, R, h, hR => by
    obtain ⟨n, rfl⟩ : ∃ n, fuel = n + 1 := ⟨fuel - 1, by omega⟩
    obtain ⟨R', hs, hlen⟩ := decode32_encode [b0, b1] (n + 1) si P R h hR
    rw [symbols_two] at hs ⊢
    exact ⟨R', by simp only [decode64, hs], hlen⟩
  | [b0, b1, b2], fuel, si, P, R, h, hR => by
    obtain ⟨n, rfl⟩ : ∃ n, fuel = n + 1 := ⟨fuel - 1, by omega⟩
    obtain ⟨R', hs, hlen⟩ := decode32_encode [b0, b1, b2] (n + 1) si P R h hR
    rw [symbols_three, symbols_nil] at hs ⊢
    exact ⟨R', by simp only [decode64, hs], hlen⟩
  | [b0, b1, b2, b3], fuel, si, P, R, h, hR => by
    obtain ⟨n, rfl⟩ : ∃ n, fuel = n + 1 := ⟨fuel - 1, by omega⟩
    obtain ⟨R', hs, hlen⟩ := decode32_encode [b0, b1, b2, b3] (n + 1) si P R h hR
    rw [symbols_three] at h hR hs ⊢
    by_cases hg : 64 ≤ intSize ∧ 8 ≤ (P ++ R).length - P.length
    · have hR8 : 8 ≤ R.length := by rw [room_eq] at hg; exact hg.2
      have hq := decodeQuantum_full _ _ _ _ (sextet_lt (quantumVal b0.val b1.val b2.val) 18)
        (sextet_lt (quantumVal b0.val b1.val b2.val) 12)
        (sextet_lt (quantumVal b0.val b1.val b2.val) 6)
        (sextet_lt (quantumVal b0.val b1.val b2.val) 0) (StdEncoding.symbols [b3]) si P R
        (by omega)
      obtain ⟨R2, ih, hlen2⟩ := decode64_encode intSize [b3] n (si + 4) (P ++ [b0, b1, b2])
        (R.drop 3) (by simp only [List.length_cons] at h; omega)
        (by rw [symbols_one]; simp only [List.length_cons, List.length_nil, List.length_drop]; omega)
      refine ⟨R2, ?_, by simp only [List.length_drop, List.length_cons, List.length_nil] at hlen2 ⊢; omega⟩
      simp only [List.append_assoc, List.cons_append, List.nil_append, List.length_append,
        List.length_cons, List.length_nil] at ih
      rw [(bytes_full b0 b1 b2).1, (bytes_full b0 b1 b2).2.1, (bytes_full b0 b1 b2).2.2] at hq
      rw [symbols_one] at hs hq ih ⊢
      simp only [decode64, if_pos hg, hq, ih, decodeMap_sym _ (sextet_lt _ _), decodeMap_pad,
        assemble64_pad _ _ _ _ _ _ _ (lt_256_of_sextet _ _) (lt_256_of_sextet _ _)
          (lt_256_of_sextet _ _) (lt_256_of_sextet _ _) (lt_256_of_sextet _ _)
          (lt_256_of_sextet _ _) (by norm_num : (255 : Nat) < 256)]
      simp
    · exact ⟨R', by rw [symbols_one] at hs ⊢; simp only [decode64, if_neg hg, hs], hlen⟩
  | [b0, b1, b2, b3, b4], fuel, si, P, R, h, hR => by
    obtain ⟨n, rfl⟩ : ∃ n, fuel = n + 1 := ⟨fuel - 1, by omega⟩
    obtain ⟨R', hs, hlen⟩ := decode32_encode [b0, b1, b2, b3, b4] (n + 1) si P R h hR
    rw [symbols_three] at h hR hs ⊢
    by_cases hg : 64 ≤ intSize ∧ 8 ≤ (P ++ R).length - P.length
    · have hR8 : 8 ≤ R.length := by rw [room_eq] at hg; exact hg.2
      have hq := decodeQuantum_full _ _ _ _ (sextet_lt (quantumVal b0.val b1.val b2.val) 18)
        (sextet_lt (quantumVal b0.val b1.val b2.val) 12)
        (sextet_lt (quantumVal b0.val b1.val b2.val) 6)
        (sextet_lt (quantumVal b0.val b1.val b2.val) 0) (StdEncoding.symbols [b3, b4]) si P R
        (by omega)
      obtain ⟨R2, ih, hlen2⟩ := decode64_encode intSize [b3, b4] n (si + 4) (P ++ [b0, b1, b2])
        (R.drop 3) (by simp only [List.length_cons] at h; omega)
        (by rw [symbols_two]; simp only [List.length_cons, List.length_nil, List.length_drop]; omega)
      refine ⟨R2, ?_, by simp only [List.length_drop, List.length_cons, List.length_nil] at hlen2 ⊢; omega⟩
      simp only [List.append_assoc, List.cons_append, List.nil_append, List.length_append,
        List.length_cons, List.length_nil] at ih
      rw [(bytes_full b0 b1 b2).1, (bytes_full b0 b1 b2).2.1, (bytes_full b0 b1 b2).2.2] at hq
      rw [symbols_two] at hs hq ih ⊢
      simp only [decode64, if_pos hg, hq, ih, decodeMap_sym _ (sextet_lt _ _), decodeMap_pad,
        assemble64_pad _ _ _ _ _ _ _ (lt_256_of_sextet _ _) (lt_256_of_sextet _ _)
          (lt_256_of_sextet _ _) (lt_256_of_sextet _ _) (lt_256_of_sextet _ _)
          (lt_256_of_sextet _ _) (lt_256_of_sextet _ _)]
      simp
    · exact ⟨R', by rw [symbols_two] at hs ⊢; simp only [decode64, if_neg hg, hs], hlen⟩
  | b0 :: b1 :: b2 :: b3 :: b4 :: b5 :: rest, fuel, si, P, R, h, hR => by
    obtain ⟨n, rfl⟩ : ∃ n, fuel = n + 1 := ⟨fuel - 1, by omega⟩
    obtain ⟨R', hs, hlen⟩ :=
      decode32_encode (b0 :: b1 :: b2 :: b3 :: b4 :: b5 :: rest) (n + 1) si P R h hR
    rw [symbols_three, symbols_three] at h hR hs ⊢
    simp only [List.length_cons] at h hR
    by_cases hg : 64 ≤ intSize ∧ 8 ≤ (P ++ R).length - P.length
    · have hR8 : 8 ≤ R.length := by rw [room_eq] at hg; exact hg.2
      have h6 := bytes64 b0 b1 b2 b3 b4 b5 _ rfl
      simp only [List.cons.injEq, and_true] at h6
      obtain ⟨e0, e1, e2, e3, e4, e5⟩ := h6
      generalize hdn : (sextet (quantumVal b0.val b1.val b2.val) 18 * 262144
          + sextet (quantumVal b0.val b1.val b2.val) 12 * 4096
          + sextet (quantumVal b0.val b1.val b2.val) 6 * 64
          + sextet (quantumVal b0.val b1.val b2.val) 0) * 1099511627776
        + (sextet (quantumVal b3.val b4.val b5.val) 18 * 262144
          + sextet (quantumVal b3.val b4.val b5.val) 12 * 4096
          + sextet (quantumVal b3.val b4.val b5.val) 6 * 64
          + sextet (quantumVal b3.val b4.val b5.val) 0) * 65536 = dn at e0 e1 e2 e3 e4 e5
      obtain ⟨R2, ih, hlen2⟩ := decode64_encode intSize rest n (si + 8)
        (P ++ [b0, b1, b2, b3, b4, b5]) (toByte (dn >>> 8) :: toByte dn :: R.drop 8)
        (by omega) (by simp only [List.length_cons, List.length_drop]; omega)
      refine ⟨R2, ?_, by simp only [List.length_drop, List.length_cons] at hlen2 ⊢; omega⟩
      simp only [List.append_assoc, List.cons_append, List.nil_append, List.length_append,
        List.length_cons, List.length_nil] at ih
      have hpb := putBytes_window P R
        [b0, b1, b2, b3, b4, b5, toByte (dn >>> 8), toByte dn] (by simpa using hR8)
      simp only [decode64, if_pos hg, decodeMap_sym _ (sextet_lt _ _),
        assemble64_ok _ _ _ _ _ _ _ _ (sextet_lt _ _) (sextet_lt _ _) (sextet_lt _ _) (sextet_lt _ _)
          (sextet_lt _ _) (sextet_lt _ _) (sextet_lt _ _) (sextet_lt _ _),
        hdn, e0, e1, e2, e3, e4, e5, hpb,
        List.cons_append, List.nil_append, List.length_cons, List.length_nil, ih]
      simp
      omega
    · exact ⟨R', by simp only [decode64, if_neg hg, hs], hlen⟩

theorem set_four_up (R : List Byte) (a b c d : Byte) (h : 4 ≤ R.length) :
    (((R.set 0 a).set 1 b).set 2 c).set 3 d = a :: b :: c :: d :: R.drop 4 := by
  match R, h with
  | _ :: _ :: _ :: _ :: _, _ => simp

theorem symbols_length : ∀ bs : List Byte,
    (StdEncoding.symbols bs).length = StdEncoding.EncodedLen bs.length
  | [] => by simp [symbols_nil, Encoding.EncodedLen]
  | [b0] => by
    have hp : ¬ (StdEncoding.padChar = NoPadding) := by decide
    rw [symbols_one]; simp [Encoding.EncodedLen, hp]
  | [b0, b1] => by
    have hp : ¬ (StdEncoding.padChar = NoPadding) := by decide
    rw [symbols_two]; simp [Encoding.EncodedLen, hp]
  | b0 :: b1 :: b2 :: rest => by
    have ih := symbols_length rest
    have hp : ¬ (StdEncoding.padChar = NoPadding) := by decide
    rw [symbols_three]
    simp only [Encoding.EncodedLen, if_neg hp, List.length_cons] at ih ⊢
    omega

/-- With room for them, `Encode` writes the symbols of `src` from `di` on and nothing
else. -/
theorem Encode_symbols : ∀ (bs P R : List Byte), (StdEncoding.symbols bs).length ≤ R.length →
    StdEncoding.Encode (P ++ R) P.length bs
      = some (P ++ (StdEncoding.symbols bs ++ R.drop (StdEncoding.symbols bs).length))
  | [], P, R, _ => by simp [Encoding.Encode, symbols_nil]
  | [b0], P, R, h => by
    have hp : StdEncoding.padChar ≠ NoPadding := by decide
    have hs : (StdEncoding.symbols [b0]).length = 4 := by rw [symbols_one]; rfl
    rw [hs] at h
    simp only [Encoding.Encode, Encoding.symbols, hp, ne_eq, not_false_eq_true, if_true]
    rw [setByte_window P R 0 _ (by omega)]
    simp only [Option.bind_eq_bind, Option.some_bind]
    rw [setByte_window P _ 1 _ (by simp only [List.length_set]; omega)]
    simp only [Option.some_bind]
    rw [setByte_window P _ 2 _ (by simp only [List.length_set]; omega)]
    simp only [Option.some_bind]
    rw [setByte_window P _ 3 _ (by simp only [List.length_set]; omega), set_four_up R _ _ _ _ h]
    simp
  | [b0, b1], P, R, h => by
    have hp : StdEncoding.padChar ≠ NoPadding := by decide
    have hs : (StdEncoding.symbols [b0, b1]).length = 4 := by rw [symbols_two]; rfl
    rw [hs] at h
    simp only [Encoding.Encode, Encoding.symbols, hp, ne_eq, not_false_eq_true, if_true]
    rw [setByte_window P R 0 _ (by omega)]
    simp only [Option.bind_eq_bind, Option.some_bind]
    rw [setByte_window P _ 1 _ (by simp only [List.length_set]; omega)]
    simp only [Option.some_bind]
    rw [setByte_window P _ 2 _ (by simp only [List.length_set]; omega)]
    simp only [Option.some_bind]
    rw [setByte_window P _ 3 _ (by simp only [List.length_set]; omega), set_four_up R _ _ _ _ h]
    simp
  | b0 :: b1 :: b2 :: rest, P, R, h => by
    have hs : (StdEncoding.symbols (b0 :: b1 :: b2 :: rest)).length
        = (StdEncoding.symbols rest).length + 4 := by rw [symbols_three]; rfl
    rw [hs] at h ⊢
    have ih := Encode_symbols rest
      (P ++ [StdEncoding.sym ((b0.val <<< 16 ||| b1.val <<< 8 ||| b2.val) >>> 18 &&& 0x3F),
        StdEncoding.sym ((b0.val <<< 16 ||| b1.val <<< 8 ||| b2.val) >>> 12 &&& 0x3F),
        StdEncoding.sym ((b0.val <<< 16 ||| b1.val <<< 8 ||| b2.val) >>> 6 &&& 0x3F),
        StdEncoding.sym ((b0.val <<< 16 ||| b1.val <<< 8 ||| b2.val) &&& 0x3F)])
      (R.drop 4) (by simp only [List.length_drop]; omega)
    simp only [List.append_assoc, List.cons_append, List.nil_append, List.length_append,
      List.length_cons, List.length_nil, List.drop_drop] at ih
    simp only [Encoding.Encode, Encoding.symbols]
    rw [setByte_window P R 0 _ (by omega)]
    simp only [Option.bind_eq_bind, Option.some_bind]
    rw [setByte_window P _ 1 _ (by simp only [List.length_set]; omega)]
    simp only [Option.some_bind]
    rw [setByte_window P _ 2 _ (by simp only [List.length_set]; omega)]
    simp only [Option.some_bind]
    rw [setByte_window P _ 3 _ (by simp only [List.length_set]; omega),
      set_four_up R _ _ _ _ (by omega)]
    simp only [Option.some_bind]
    rw [show P.length + 4 = P.length + (0 + 1 + 1 + 1 + 1) from rfl, ih]
    simp [Nat.add_comm]

theorem symbols_length_pos (bs : List Byte) (h : bs ≠ []) :
    (StdEncoding.symbols bs).length ≠ 0 := by
  match bs, h with
  | [b0], _ => rw [symbols_one]; simp
  | [b0, b1], _ => rw [symbols_two]; simp
  | b0 :: b1 :: b2 :: rest, _ => rw [symbols_three]; simp

theorem EncodeStringToBase64_eq (s : GoString) :
    EncodeStringToBase64 s = some (StdEncoding.symbols s) := by
  unfold EncodeStringToBase64 Encoding.EncodeToString
  have h := Encode_symbols s [] (makeBytes (StdEncoding.EncodedLen s.length))
    (by rw [symbols_length]; simp [makeBytes])
  simp only [List.nil_append, List.length_nil] at h
  rw [h, List.drop_of_length_le (by rw [symbols_length]; simp [makeBytes])]
  simp

/-- C10 (Base64 round trip): for every string `s`, any sequence of bytes, the empty one
included, `EncodeStringToBase64(s)` returns a string `e` and
`DecodeBase64ToString(e)` returns `s` with a nil error, on 32-bit and on 64-bit
platforms alike; no write to the buffers allocated with `EncodedLen` and `DecodedLen`
is out of range. -/
theorem base64_round_trip (intSize : Nat) (s : GoString) :
    ∃ e, EncodeStringToBase64 s = some e ∧ DecodeBase64ToString intSize e = some (s, none) := by
  refine ⟨StdEncoding.symbols s, EncodeStringToBase64_eq s, ?_⟩
  unfold DecodeBase64ToString Encoding.DecodeString Encoding.Decode
  cases s with
  | nil => simp [symbols_nil]
  | cons b bs =>
    have hp : ¬ (StdEncoding.padChar = NoPadding) := by decide
    rw [if_neg (symbols_length_pos (b :: bs) (by simp))]
    obtain ⟨R', hd, hlen⟩ := decode64_encode intSize (b :: bs)
      ((StdEncoding.symbols (b :: bs)).length + 1) 0 []
      (makeBytes (StdEncoding.DecodedLen (StdEncoding.symbols (b :: bs)).length))
      (Nat.lt_succ_self _) (by simp [makeBytes, Encoding.DecodedLen, hp])
    simp only [List.nil_append, List.length_nil, Nat.zero_add] at hd
    rw [hd]
    simp

/-! ## `FlattenJSON`: the pairs it returns -/

theorem walkJSON_acc {β : Type} (fmtV : β → GoString) (m : JMap β) :
    ∀ (pre : GoString) (acc : List (GoString × GoString)),
      walkJSON fmtV m pre acc = acc ++ walkJSON fmtV m pre [] := by
  induction m with
  | empty => intro pre acc; simp [walkJSON]
  | leaf k v rest ih =>
    intro pre acc
    simp only [walkJSON, List.nil_append]
    rw [ih pre (acc ++ [(fullKey pre k, fmtV v)]), ih pre [(fullKey pre k, fmtV v)],
      List.append_assoc]
  | sub k m rest ihm ihr =>
    intro pre acc
    simp only [walkJSON]
    rw [ihr pre (walkJSON fmtV m (fullKey pre k) acc), ihm (fullKey pre k) acc,
      ihr pre (walkJSON fmtV m (fullKey pre k) []), List.append_assoc]

theorem walkJSON_leaves {β : Type} (fmtV : β → GoString) (m : JMap β) :
    ∀ pre : GoString,
      walkJSON fmtV m pre [] = m.leaves.map fun l => (pathKey pre l.1, fmtV l.2) := by
  induction m with
  | empty => intro pre; rfl
  | leaf k v rest ih =>
    intro pre
    simp only [walkJSON, List.nil_append, JMap.leaves, List.map_cons, pathKey]
    rw [walkJSON_acc, ih pre]
    rfl
  | sub k m rest ihm ihr =>
    intro pre
    simp only [walkJSON, JMap.leaves, List.map_append, List.map_map]
    rw [walkJSON_acc, ihm (fullKey pre k), ihr pre]
    rfl

theorem leaves_length {β : Type} (m : JMap β) : m.leaves.length = m.numLeaves := by
  induction m with
  | empty => rfl
  | leaf k v rest ih => simp only [JMap.leaves, JMap.numLeaves, List.length_cons, ih]; omega
  | sub k m rest ihm ihr =>
    simp only [JMap.leaves, JMap.numLeaves, List.length_append, List.length_map, ihm, ihr]

theorem fullKey_ne_nil (pre k : GoString) (h : pre ≠ []) : fullKey pre k ≠ [] := by
  simp [fullKey, h, dotStr]

theorem pathKey_of_ne_nil : ∀ (p : List GoString) (pre : GoString), pre ≠ [] → p ≠ [] →
    pathKey pre p = pre ++ dotStr ++ joinDots p
  | [], _, _, hp => absurd rfl hp
  | [k], pre, h, _ => by simp [pathKey, fullKey, h, joinDots]
  | k :: k2 :: ks, pre, h, _ => by
    have ih := pathKey_of_ne_nil (k2 :: ks) (fullKey pre k) (fullKey_ne_nil pre k h) (by simp)
    rw [pathKey, ih]
    simp [fullKey, h, joinDots, List.append_assoc]

/-- From the root the key built along a path is the dot-joined path, unless the path
goes through a nested map held by an empty top-level key. -/
theorem pathKey_root (k : GoString) (ks : List GoString) (h : ks = [] ∨ k ≠ []) :
    pathKey [] (k :: ks) = joinDots (k :: ks) := by
  cases ks with
  | nil => simp [pathKey, fullKey, joinDots]
  | cons k2 ks =>
    have hk : k ≠ [] := by
      rcases h with h | h
      · simp at h
      · exact h
    rw [pathKey, pathKey_of_ne_nil (k2 :: ks) (fullKey [] k) (by simpa [fullKey] using hk)
      (by simp)]
    simp [fullKey, joinDots]

theorem leaves_path_ne_nil {β : Type} (m : JMap β) : ∀ l ∈ m.leaves, l.1 ≠ [] := by
  induction m with
  | empty => intro l hl; simp [JMap.leaves] at hl
  | leaf k v rest ih =>
    intro l hl
    simp only [JMap.leaves, List.mem_cons] at hl
    rcases hl with rfl | hl
    · simp
    · exact ih l hl
  | sub k m rest _ ihr =>
    intro l hl
    simp only [JMap.leaves, List.mem_append, List.mem_map] at hl
    rcases hl with ⟨l', _, rfl⟩ | hl
    · simp
    · exact ihr l hl

theorem leaves_pathKey_root {β : Type} (m : JMap β) (h : m.TopMapKeysNonEmpty) :
    ∀ l ∈ m.leaves, pathKey [] l.1 = joinDots l.1 := by
  induction m with
  | empty => intro l hl; simp [JMap.leaves] at hl
  | leaf k v rest ih =>
    intro l hl
    simp only [JMap.leaves, List.mem_cons] at hl
    rcases hl with rfl | hl
    · exact pathKey_root k [] (Or.inl rfl)
    · exact ih h l hl
  | sub k m rest _ ihr =>
    intro l hl
    simp only [JMap.leaves, List.mem_append, List.mem_map] at hl
    rcases hl with ⟨l', _, rfl⟩ | hl
    · exact pathKey_root k l'.1 (Or.inr h.1)
    · exact ihr h.2 l hl

theorem FlattenJSON_eq {β : Type} (fmtV : β → GoString) (data : JMap β)
    (h : data.TopMapKeysNonEmpty) :
    FlattenJSON fmtV data = data.leaves.map fun l => (joinDots l.1, fmtV l.2) := by
  unfold FlattenJSON
  rw [walkJSON_leaves]
  apply List.map_congr_left
  intro l hl
  rw [leaves_pathKey_root data h l hl]

/-- Another iteration order only permutes what `walkJSON` appends. -/
theorem Reordered.walk_perm {β : Type} (fmtV : β → GoString) {a b : JMap β}
    (h : Reordered a b) :
    ∀ pre : GoString, List.Perm (walkJSON fmtV a pre []) (walkJSON fmtV b pre []) := by
  induction h with
  | refl m => intro pre; exact List.Perm.refl _
  | trans _ _ ih1 ih2 => intro pre; exact (ih1 pre).trans (ih2 pre)
  | leaf k v _ ih =>
    intro pre
    simp only [walkJSON, List.nil_append]
    rw [walkJSON_acc fmtV _ pre [_], walkJSON_acc fmtV _ pre [_]]
    exact List.Perm.append_left _ (ih pre)
  | sub k _ _ ihm ihr =>
    intro pre
    simp only [walkJSON]
    rw [walkJSON_acc fmtV _ pre (walkJSON fmtV _ _ _), walkJSON_acc fmtV _ pre (walkJSON fmtV _ _ _)]
    exact List.Perm.append (ihm _) (ihr pre)
  | swap e1 e2 r =>
    intro pre
    obtain ⟨k1, x1⟩ := e1
    obtain ⟨k2, x2⟩ := e2
    cases x1 <;> cases x2 <;> simp only [JMap.cons, walkJSON, List.nil_append] <;>
      (repeat rw [walkJSON_acc fmtV r pre (_ ++ _)]) <;>
      (repeat rw [walkJSON_acc fmtV r pre (walkJSON fmtV _ _ _)]) <;>
      (repeat rw [walkJSON_acc fmtV _ _ [_]]) <;>
      (repeat rw [walkJSON_acc fmtV _ _ (walkJSON fmtV _ _ [])]) <;>
      simp only [List.append_assoc] <;>
      rw [← List.append_assoc, ← List.append_assoc _ _ (walkJSON fmtV r pre [])] <;>
      exact List.Perm.append_right _ List.perm_append_comm

/-- C11 (defect of the code at an empty top-level key): on the map `{"": {"a": 1}}` the
only value that is not a map lies on the path `""`, `"a"`, whose keys joined with `"."`
are `".a"`; `FlattenJSON` returns the key `"a"` instead, the same result as for the map
`{"a": 1}`, so the result is no reordering of the pairs of dot-joined path and formatted
value.  Below the top level the empty key is kept: `{"x": {"": {"a": 1}}}` gives
`"x..a"`. -/
theorem FlattenJSON_empty_top_key :
    FlattenJSON sampleFmt emptyKeyMap = [([97], [49])] ∧
    (emptyKeyMap.leaves.map fun l => (joinDots l.1, sampleFmt l.2)) = [([46, 97], [49])] ∧
    ¬ List.Perm (FlattenJSON sampleFmt emptyKeyMap)
        (emptyKeyMap.leaves.map fun l => (joinDots l.1, sampleFmt l.2)) ∧
    FlattenJSON sampleFmt emptyKeyMap = FlattenJSON sampleFmt (.leaf [97] 1 .empty) ∧
    FlattenJSON sampleFmt nestedEmptyKeyMap = [([120, 46, 46, 97], [49])] ∧
    (nestedEmptyKeyMap.leaves.map fun l => (joinDots l.1, sampleFmt l.2))
      = [([120, 46, 46, 97], [49])] := by
  refine ⟨by decide, by decide, ?_, by decide, by decide, by decide⟩
  intro h
  have hm : (([97], [49]) : GoString × GoString) ∈ FlattenJSON sampleFmt emptyKeyMap := by
    decide
  have := h.subset hm
  revert this
  decide

/-- Away from that defect: for every nested map in which no top-level key holding a
nested map is the empty string, `FlattenJSON` returns exactly one pair for each value
that is not itself a `map[string]interface{}`: the keys on the path from the root
joined with `"."` and the value formatted with `%v`.  In whatever order `range` visits
the maps the result is a reordering of these pairs. -/
theorem FlattenJSON_leaves {β : Type} (fmtV : β → GoString) (data : JMap β)
    (h : data.TopMapKeysNonEmpty) :
    FlattenJSON fmtV data = (data.leaves.map fun l => (joinDots l.1, fmtV l.2)) ∧
    (∀ data', Reordered data data' →
      List.Perm (FlattenJSON fmtV data') (data.leaves.map fun l => (joinDots l.1, fmtV l.2))) := by
  have heq := FlattenJSON_eq fmtV data h
  refine ⟨heq, ?_⟩
  intro data' hr
  rw [← heq]
  exact (hr.walk_perm fmtV []).symm

/-- The number of pairs `FlattenJSON` returns is the number of values that are not maps,
for every nested map; a nested map without entries contributes no pair. -/
theorem FlattenJSON_length {β : Type} (fmtV : β → GoString) (data : JMap β) :
    (FlattenJSON fmtV data).length = data.numLeaves ∧
    (∀ (k : GoString) (rest : JMap β) (pre : GoString) (acc : List (GoString × GoString)),
      walkJSON fmtV (.sub k .empty rest) pre acc = walkJSON fmtV rest pre acc) := by
  refine ⟨?_, ?_⟩
  · unfold FlattenJSON
    rw [walkJSON_leaves, List.length_map, leaves_length]
  · intro k rest pre acc
    simp [walkJSON]

/-! ## `FlattenJSON`: distinct keys -/

theorem dot_split : ∀ (a b x y : GoString), (46 : Byte) ∉ a → (46 : Byte) ∉ b →
    a ++ 46 :: x = b ++ 46 :: y → a = b ∧ x = y
  | [], [], x, y, _, _, h => by simpa using h
  | [], c :: b, x, y, _, hb, h => by
    simp only [List.nil_append, List.cons_append, List.cons.injEq] at h
    exact absurd (by rw [← h.1]; exact List.mem_cons_self _ _) hb
  | c :: a, [], x, y, ha, _, h => by
    simp only [List.nil_append, List.cons_append, List.cons.injEq] at h
    exact absurd (by rw [h.1]; exact List.mem_cons_self _ _) ha
  | c :: a, d :: b, x, y, ha, hb, h => by
    simp only [List.cons_append, List.cons.injEq] at h
    obtain ⟨r1, r2⟩ := dot_split a b x y (fun m => ha (List.mem_cons_of_mem _ m))
      (fun m => hb (List.mem_cons_of_mem _ m)) h.2
    exact ⟨by rw [h.1, r1], r2⟩

theorem joinDots_cons_cons (k k2 : GoString) (ks : List GoString) :
    joinDots (k :: k2 :: ks) = k ++ 46 :: joinDots (k2 :: ks) := by
  simp [joinDots, dotStr]

/-- Joining with `"."` loses nothing when no key contains `"."`. -/
theorem joinDots_inj : ∀ (p q : List GoString), p ≠ [] → q ≠ [] →
    (∀ k ∈ p, (46 : Byte) ∉ k) → (∀ k ∈ q, (46 : Byte) ∉ k) → joinDots p = joinDots q → p = q
  | [], _, hp, _, _, _, _ => absurd rfl hp
  | _ :: _, [], _, hq, _, _, _ => absurd rfl hq
  | [k], [k'], _, _, _, _, h => by simpa [joinDots] using h
  | [k], k' :: k2 :: ks, _, _, hp, _, h => by
    rw [joinDots_cons_cons] at h
    simp only [joinDots] at h
    exact absurd (by rw [h]; simp) (hp k (List.mem_cons_self _ _))
  | k :: k2 :: ks, [k'], _, _, _, hq, h => by
    rw [joinDots_cons_cons] at h
    simp only [joinDots] at h
    exact absurd (by rw [← h]; simp) (hq k' (List.mem_cons_self _ _))
  | k :: k2 :: ks, k' :: k2' :: ks', _, _, hp, hq, h => by
    rw [joinDots_cons_cons, joinDots_cons_cons] at h
    obtain ⟨r1, r2⟩ := dot_split k k' _ _ (hp k (List.mem_cons_self _ _))
      (hq k' (List.mem_cons_self _ _)) h
    have ih := joinDots_inj (k2 :: ks) (k2' :: ks') (by simp) (by simp)
      (fun x hx => hp x (List.mem_cons_of_mem _ hx)) (fun x hx => hq x (List.mem_cons_of_mem _ hx)) r2
    rw [r1, ih]

theorem leaves_head_mem_keys {β : Type} (m : JMap β) :
    ∀ l ∈ m.leaves, ∃ k ∈ m.keys, ∃ t, l.1 = k :: t := by
  induction m with
  | empty => intro l hl; simp [JMap.leaves] at hl
  | leaf k v rest ih =>
    intro l hl
    simp only [JMap.leaves, List.mem_cons] at hl
    rcases hl with rfl | hl
    · exact ⟨k, by simp [JMap.keys], [], rfl⟩
    · obtain ⟨k', hk', t, ht⟩ := ih l hl
      exact ⟨k', by simp [JMap.keys, hk'], t, ht⟩
  | sub k m rest _ ihr =>
    intro l hl
    simp only [JMap.leaves, List.mem_append, List.mem_map] at hl
    rcases hl with ⟨l', _, rfl⟩ | hl
    · exact ⟨k, by simp [JMap.keys], l'.1, rfl⟩
    · obtain ⟨k', hk', t, ht⟩ := ihr l hl
      exact ⟨k', by simp [JMap.keys, hk'], t, ht⟩

/-- Distinct values that are not maps lie on distinct paths. -/
theorem leaves_paths_nodup {β : Type} (m : JMap β) (h : m.DistinctKeys) :
    (m.leaves.map Prod.fst).Nodup := by
  induction m with
  | empty => simp [JMap.leaves]
  | leaf k v rest ih =>
    simp only [JMap.leaves, List.map_cons, List.nodup_cons, List.mem_map]
    refine ⟨?_, ih h.2⟩
    rintro ⟨l, hl, hk⟩
    obtain ⟨k', hk', t, ht⟩ := leaves_head_mem_keys rest l hl
    rw [ht] at hk
    simp only [List.cons.injEq] at hk
    exact h.1 (hk.1 ▸ hk')
  | sub k m rest ihm ihr =>
    simp only [JMap.leaves, List.map_append, List.map_map]
    refine List.Nodup.append ?_ (ihr h.2.2) ?_
    · have : (List.map (Prod.fst ∘ fun l : List GoString × β => (k :: l.1, l.2)) m.leaves)
          = (m.leaves.map Prod.fst).map (fun p => k :: p) := by
        simp [List.map_map, Function.comp_def]
      rw [this]
      exact List.Nodup.map (fun a b hab => by simpa using hab) (ihm h.2.1)
    · intro p hp1 hp2
      simp only [List.mem_map, Function.comp_apply] at hp1 hp2
      obtain ⟨l1, _, rfl⟩ := hp1
      obtain ⟨l2, hl2, hk⟩ := hp2
      obtain ⟨k', hk', t, ht⟩ := leaves_head_mem_keys rest l2 hl2
      rw [ht] at hk
      simp only [List.cons.injEq] at hk
      exact h.1 (hk.1 ▸ hk')

theorem leaves_keys_nodot {β : Type} (m : JMap β) (h : m.KeysOk) :
    ∀ l ∈ m.leaves, ∀ k ∈ l.1, (46 : Byte) ∉ k := by
  induction m with
  | empty => intro l hl; simp [JMap.leaves] at hl
  | leaf k v rest ih =>
    intro l hl
    simp only [JMap.leaves, List.mem_cons] at hl
    rcases hl with rfl | hl
    · intro x hx
      simp only [List.mem_singleton] at hx
      rw [hx]; exact h.1.2
    · exact ih h.2 l hl
  | sub k m rest ihm ihr =>
    intro l hl
    simp only [JMap.leaves, List.mem_append, List.mem_map] at hl
    rcases hl with ⟨l', hl', rfl⟩ | hl
    · intro x hx
      simp only [List.mem_cons] at hx
      rcases hx with rfl | hx
      · exact h.1.2
      · exact ihm h.2.1 l' hl' x hx
    · exact ihr h.2.2 l hl

theorem KeysOk_top {β : Type} (m : JMap β) (h : m.KeysOk) : m.TopMapKeysNonEmpty := by
  induction m with
  | empty => trivial
  | leaf k v rest ih => exact ih h.2
  | sub k m rest _ ihr => exact ⟨h.1.1, ihr h.2.2⟩

theorem lookup_of_nodup : ∀ (l : List (GoString × GoString)) (a b : GoString),
    (l.map Prod.fst).Nodup → (a, b) ∈ l → l.lookup a = some b
  | [], _, _, _, hm => by simp at hm
  | (a', b') :: l, a, b, hn, hm => by
    simp only [List.map_cons, List.nodup_cons] at hn
    simp only [List.mem_cons, Prod.mk.injEq] at hm
    rcases hm with ⟨rfl, rfl⟩ | hm
    · simp [List.lookup]
    · have hne : a ≠ a' := by
        rintro rfl
        exact hn.1 (List.mem_map.mpr ⟨(a, b), hm, rfl⟩)
      have hb : (a == a') = false := by simpa using hne
      simp only [List.lookup, hb]
      exact lookup_of_nodup l a b hn.2 hm

/-- C12: for every nested map (its keys pairwise distinct at each level, as in any Go
map) in which every key at every level is non-empty and contains no `"."`, the keys of
the pairs `FlattenJSON` returns are pairwise distinct, so looking up the dot-joined
path of any non-map value in the result gives that value formatted with `%v`. -/
theorem FlattenJSON_keys_distinct {β : Type} (fmtV : β → GoString) (data : JMap β)
    (hd : data.DistinctKeys) (hk : data.KeysOk) :
    ((FlattenJSON fmtV data).map Prod.fst).Nodup ∧
    ∀ l ∈ data.leaves, (FlattenJSON fmtV data).lookup (joinDots l.1) = some (fmtV l.2) := by
  have heq := FlattenJSON_eq fmtV data (KeysOk_top data hk)
  have hnd : ((FlattenJSON fmtV data).map Prod.fst).Nodup := by
    rw [heq, List.map_map]
    have : (List.map (Prod.fst ∘ fun l : List GoString × β => (joinDots l.1, fmtV l.2)) data.leaves)
        = (data.leaves.map Prod.fst).map joinDots := by
      simp [List.map_map, Function.comp_def]
    rw [this]
    refine List.Nodup.map_on ?_ (leaves_paths_nodup data hd)
    intro p hp q hq hpq
    obtain ⟨l1, hl1, rfl⟩ := List.mem_map.mp hp
    obtain ⟨l2, hl2, rfl⟩ := List.mem_map.mp hq
    exact joinDots_inj l1.1 l2.1 (leaves_path_ne_nil data l1 hl1) (leaves_path_ne_nil data l2 hl2)
      (leaves_keys_nodot data hk l1 hl1) (leaves_keys_nodot data hk l2 hl2) hpq
  refine ⟨hnd, ?_⟩
  intro l hl
  apply lookup_of_nodup _ _ _ hnd
  rw [heq]
  exact List.mem_map.mpr ⟨l, hl, rfl⟩

theorem FlattenJSON_keys_distinct_witness :
    sampleMap.DistinctKeys ∧ sampleMap.KeysOk ∧
    (((FlattenJSON sampleFmt sampleMap).map Prod.fst).Nodup ∧
    ∀ l ∈ sampleMap.leaves,
      (FlattenJSON sampleFmt sampleMap).lookup (joinDots l.1) = some (sampleFmt l.2)) :=
  ⟨by decide, by decide, FlattenJSON_keys_distinct sampleFmt sampleMap (by decide) (by decide)⟩

end utils
